import Mathlib

/-
Verification of the mask reconciliation and scoring engine of
src/mrcnn/analyze.py (classes ModelTester and Analyzer).

Masks are embedded as grids of naturals (List (List Nat)), mirroring the
numpy arrays the code manipulates.  Connected-component labelling
(skimage.measure.label with connectivity=1, i.e. the RasterLabeler of
spec section 4.1: foreground is any non-zero cell, 4-neighbourhood
connectivity, labels assigned in raster-scan order of first encounter)
is embedded as a raster scan that assigns to each newly met foreground
pixel the set of pixels reachable from it, computed by iterated
neighbourhood expansion.  Scores and matrix entries are rationals.
-/

/-! ### Positions and 4-neighbourhood adjacency -/

abbrev Pos := ℕ × ℕ

/-- Four-neighbourhood (edge) adjacency of raster cells, the
`connectivity=1` notion used by `extract_mask_connected_components`. -/
def adj4 (p q : Pos) : Prop :=
  (p.1 = q.1 ∧ (p.2 + 1 = q.2 ∨ q.2 + 1 = p.2)) ∨
  (p.2 = q.2 ∧ (p.1 + 1 = q.1 ∨ q.1 + 1 = p.1))

instance : DecidableRel adj4 := fun p q => by
  unfold adj4; exact inferInstance

lemma adj4_symm : ∀ a b : Pos, adj4 a b → adj4 b a := by
  intro a b h
  rcases h with ⟨h1, h2⟩ | ⟨h1, h2⟩
  · exact Or.inl ⟨h1.symm, h2.symm⟩
  · exact Or.inr ⟨h1.symm, h2.symm⟩

/-! ### Generic reachability closure over a finite carrier

The labelling algorithm needs, for a pixel `p` of a foreground set `S`,
the set of pixels of `S` reachable from `p` by adjacency steps.  We
compute it by iterating one-step neighbourhood expansion `S.card`
times, which is enough to reach the fixpoint. -/

section Closure

variable {α : Type} [DecidableEq α] (adj : α → α → Prop) [DecidableRel adj]

/-- One step of neighbourhood expansion inside the carrier `S`. -/
def expandStep (S X : Finset α) : Finset α :=
  X ∪ S.filter (fun q => ∃ p ∈ X, adj p q)

/-- Reachable set of `p` inside `S`: iterate expansion `S.card` times. -/
def clos (S : Finset α) (p : α) : Finset α :=
  (fun X => expandStep adj S X)^[S.card] {p}

/-- One reachability step: move to an adjacent element of the carrier. -/
def reachStep (S : Finset α) (a b : α) : Prop := adj a b ∧ b ∈ S

/-- Reachability inside the carrier `S`. -/
def Reach (S : Finset α) (p q : α) : Prop :=
  Relation.ReflTransGen (reachStep adj S) p q

lemma subset_expandStep (S X : Finset α) : X ⊆ expandStep adj S X :=
  Finset.subset_union_left

lemma expandStep_mono {S X Y : Finset α} (h : X ⊆ Y) :
    expandStep adj S X ⊆ expandStep adj S Y := by
  apply Finset.union_subset
  · exact h.trans (subset_expandStep adj S Y)
  · intro q hq
    rw [Finset.mem_filter] at hq
    obtain ⟨hqS, p, hpX, hadj⟩ := hq
    exact Finset.mem_union_right _ (Finset.mem_filter.2 ⟨hqS, p, h hpX, hadj⟩)

lemma expandStep_subset_union (S X : Finset α) :
    expandStep adj S X ⊆ X ∪ S := by
  apply Finset.union_subset Finset.subset_union_left
  exact (Finset.filter_subset _ _).trans Finset.subset_union_right

lemma iter_subset_succ (S : Finset α) (p : α) (k : ℕ) :
    (fun X => expandStep adj S X)^[k] {p} ⊆
      (fun X => expandStep adj S X)^[k + 1] {p} := by
  rw [Function.iterate_succ_apply']
  exact subset_expandStep adj S _

lemma iter_subset_insert (S : Finset α) (p : α) (k : ℕ) :
    (fun X => expandStep adj S X)^[k] {p} ⊆ insert p S := by
  induction k with
  | zero => simp
  | succ n ih =>
    rw [Function.iterate_succ_apply']
    refine (expandStep_subset_union adj S _).trans ?_
    apply Finset.union_subset ih
    exact Finset.subset_insert _ _

lemma iter_mono_le (S : Finset α) (p : α) {k l : ℕ} (h : k ≤ l) :
    (fun X => expandStep adj S X)^[k] {p} ⊆
      (fun X => expandStep adj S X)^[l] {p} := by
  induction l with
  | zero => simpa [Nat.le_zero.1 h] using Finset.Subset.refl _
  | succ n ih =>
    rcases Nat.le_succ_iff.1 h with h' | h'
    · exact (ih h').trans (iter_subset_succ adj S p n)
    · simp [h']

lemma iter_fixed_propagate (S : Finset α) (p : α) {k : ℕ}
    (hk : (fun X => expandStep adj S X)^[k + 1] {p} =
      (fun X => expandStep adj S X)^[k] {p}) :
    ∀ m, k ≤ m → (fun X => expandStep adj S X)^[m] {p} =
      (fun X => expandStep adj S X)^[k] {p} := by
  intro m hm
  induction m with
  | zero => simp_all [Nat.le_zero.1 hm]
  | succ n ih =>
    rcases Nat.le_succ_iff.1 hm with h' | h'
    · have hn := ih h'
      rw [Function.iterate_succ_apply'] at hk ⊢
      rw [hn, hk]
    · simp [h']

/-- The iterated expansion has reached its fixpoint after `S.card`
steps. -/
lemma clos_fixed (S : Finset α) (p : α) :
    expandStep adj S (clos adj S p) = clos adj S p := by
  set f := fun X => expandStep adj S X with hf
  by_cases hex : ∃ k < S.card, f^[k + 1] {p} = f^[k] {p}
  · obtain ⟨k, hklt, hfix⟩ := hex
    have h1 : f^[S.card] {p} = f^[k] {p} :=
      iter_fixed_propagate adj S p hfix _ (Nat.le_of_lt hklt)
    have h2 : f^[S.card + 1] {p} = f^[k] {p} :=
      iter_fixed_propagate adj S p hfix _ (by omega)
    show f (f^[S.card] {p}) = f^[S.card] {p}
    rw [← Function.iterate_succ_apply' f]
    rw [h1, h2]
  · push_neg at hex
    have hstrict : ∀ k, k < S.card → k + 1 ≤ (f^[k] {p}).card := by
      intro k hk
      induction k with
      | zero => simp [f]
      | succ n ih =>
        have hlt : n < S.card := by omega
        have hsub : f^[n] {p} ⊆ f^[n + 1] {p} := iter_subset_succ adj S p n
        have hne : f^[n + 1] {p} ≠ f^[n] {p} := hex n hlt
        have hss : f^[n] {p} ⊂ f^[n + 1] {p} :=
          Finset.ssubset_iff_subset_ne.2 ⟨hsub, fun h => hne h.symm⟩
        have := Finset.card_lt_card hss
        have := ih hlt
        omega
    by_cases hcard : S.card = 0
    · -- empty carrier: the singleton is already fixed
      show f (f^[S.card] {p}) = f^[S.card] {p}
      rw [hcard]
      simp only [Function.iterate_zero_apply]
      have hS : S = ∅ := Finset.card_eq_zero.1 hcard
      simp [f, expandStep, hS]
    · -- no early fixpoint: cardinalities force the maximum set
      have hlast : S.card ≤ (f^[S.card - 1] {p}).card := by
        have := hstrict (S.card - 1) (by omega)
        omega
    -- f^[S.card - 1] {p} ⊆ insert p S with card ≥ S.card forces near-equality
      have hub : (f^[S.card] {p}).card ≤ (insert p S).card :=
        Finset.card_le_card (iter_subset_insert adj S p _)
      have hub' : (insert p S).card ≤ S.card + 1 := Finset.card_insert_le _ _
      have hsub1 : f^[S.card - 1] {p} ⊆ f^[S.card] {p} :=
        iter_mono_le adj S p (by omega)
      have hge : S.card ≤ (f^[S.card] {p}).card :=
        le_trans hlast (Finset.card_le_card hsub1)
      -- so f^[S.card] {p} has card S.card or S.card + 1, and equals insert p S
      -- in the latter case; either way one more step cannot grow it
      have heq : f^[S.card] {p} = insert p S := by
        have hne := hex (S.card - 1) (by omega)
        have hstep : f^[(S.card - 1) + 1] {p} = f^[S.card] {p} := by
          congr 1; omega
        have hss : f^[S.card - 1] {p} ⊂ f^[S.card] {p} := by
          refine Finset.ssubset_iff_subset_ne.2 ⟨hsub1, ?_⟩
          intro h
          exact hne (hstep.trans h.symm)
        have hlt2 : (f^[S.card - 1] {p}).card < (f^[S.card] {p}).card :=
          Finset.card_lt_card hss
        have hbig : S.card + 1 ≤ (f^[S.card] {p}).card := by omega
        refine Finset.eq_of_subset_of_card_le
          (iter_subset_insert adj S p _) ?_
        omega
      show f (f^[S.card] {p}) = f^[S.card] {p}
      apply Finset.Subset.antisymm
      · calc f (f^[S.card] {p}) ⊆ f^[S.card] {p} ∪ S :=
              expandStep_subset_union adj S _
          _ ⊆ f^[S.card] {p} := by
              rw [heq]; exact Finset.union_subset (Finset.Subset.refl _)
                (Finset.subset_insert _ _)
      · exact subset_expandStep adj S _

lemma mem_clos_self (S : Finset α) (p : α) : p ∈ clos adj S p := by
  have : p ∈ ({p} : Finset α) := Finset.mem_singleton_self p
  exact iter_mono_le adj S p (Nat.zero_le _) this

lemma clos_subset (S : Finset α) (p : α) : clos adj S p ⊆ insert p S :=
  iter_subset_insert adj S p _

/-- Membership in the computed closure coincides with reachability. -/
lemma mem_clos_iff {S : Finset α} {p q : α} :
    q ∈ clos adj S p ↔ Reach adj S p q := by
  constructor
  · -- anything reached by k expansion steps is reachable
    suffices h : ∀ k, ∀ r ∈ (fun X => expandStep adj S X)^[k] {p},
        Reach adj S p r by
      intro hq; exact h S.card q hq
    intro k
    induction k with
    | zero =>
      intro r hr
      simp only [Function.iterate_zero_apply, Finset.mem_singleton] at hr
      exact hr ▸ Relation.ReflTransGen.refl
    | succ n ih =>
      intro r hr
      rw [Function.iterate_succ_apply'] at hr
      rcases Finset.mem_union.1 hr with h1 | h1
      · exact ih r h1
      · rw [Finset.mem_filter] at h1
        obtain ⟨hrS, s, hs, hadj⟩ := h1
        exact Relation.ReflTransGen.tail (ih s hs) ⟨hadj, hrS⟩
  · intro h
    induction h with
    | refl => exact mem_clos_self adj S p
    | tail _hab hbc ih =>
      rename_i b c
      have : c ∈ expandStep adj S (clos adj S p) :=
        Finset.mem_union_right _
          (Finset.mem_filter.2 ⟨hbc.2, b, ih, hbc.1⟩)
      rwa [clos_fixed adj S p] at this

lemma reach_mem {S : Finset α} {p q : α} (hp : p ∈ S)
    (h : Reach adj S p q) : q ∈ S := by
  induction h with
  | refl => exact hp
  | tail _ hbc _ => exact hbc.2

lemma reach_symm (hsym : ∀ a b, adj a b → adj b a) {S : Finset α}
    {p q : α} (hp : p ∈ S) (h : Reach adj S p q) : Reach adj S q p := by
  induction h with
  | refl => exact Relation.ReflTransGen.refl
  | tail hab hbc ih =>
    rename_i b c
    have hbS : b ∈ S := reach_mem adj hp hab
    exact Relation.ReflTransGen.trans
      (Relation.ReflTransGen.single ⟨hsym b c hbc.1, hbS⟩) ih

lemma clos_eq_of_mem (hsym : ∀ a b, adj a b → adj b a) {S : Finset α}
    {p q : α} (hp : p ∈ S) (hq : q ∈ clos adj S p) :
    clos adj S q = clos adj S p := by
  have hpq : Reach adj S p q := (mem_clos_iff adj).1 hq
  have hqS : q ∈ S := reach_mem adj hp hpq
  have hqp : Reach adj S q p := reach_symm adj hsym hp hpq
  ext r
  rw [mem_clos_iff adj, mem_clos_iff adj]
  constructor
  · exact fun h => Relation.ReflTransGen.trans hpq h
  · exact fun h => Relation.ReflTransGen.trans hqp h

lemma clos_disjoint_or_eq (hsym : ∀ a b, adj a b → adj b a)
    {S : Finset α} {p q r : α} (hp : p ∈ S) (hq : q ∈ S)
    (hrp : r ∈ clos adj S p) (hrq : r ∈ clos adj S q) :
    clos adj S p = clos adj S q := by
  rw [← clos_eq_of_mem adj hsym hp hrp, ← clos_eq_of_mem adj hsym hq hrq]

lemma clos_mono_carrier {S T : Finset α} (hST : S ⊆ T) (p : α) :
    clos adj S p ⊆ clos adj T p := by
  intro q hq
  rw [mem_clos_iff adj] at hq ⊢
  exact Relation.ReflTransGen.mono
    (fun a b hab => ⟨hab.1, hST hab.2⟩) hq

/-! ### Equivalence classes and the subadditivity of the class count -/

/-- The set of connected classes of the carrier `S`. -/
def classesOf (S : Finset α) : Finset (Finset α) :=
  S.image (fun p => clos adj S p)

lemma classesOf_nonempty_mem {S : Finset α} {C : Finset α}
    (hC : C ∈ classesOf adj S) : C.Nonempty := by
  rw [classesOf, Finset.mem_image] at hC
  obtain ⟨p, _, rfl⟩ := hC
  exact ⟨p, mem_clos_self adj S p⟩

/-- Merging two carriers produces at most as many classes as the two
carriers had separately. -/
lemma classesOf_union_le (hsym : ∀ a b, adj a b → adj b a)
    (A B : Finset α) :
    (classesOf adj (A ∪ B)).card ≤
      (classesOf adj A).card + (classesOf adj B).card := by
  classical
  -- map each class of the union to a class of A or of B contained in it
  set f : Finset α → Finset α := fun C =>
    if h : (C ∩ A).Nonempty then clos adj A h.choose
    else if h' : (C ∩ B).Nonempty then clos adj B h'.choose
    else ∅ with hfdef
  have hsubset : ∀ C ∈ classesOf adj (A ∪ B), C ⊆ A ∪ B := by
    intro C hC
    rw [classesOf, Finset.mem_image] at hC
    obtain ⟨p, hp, rfl⟩ := hC
    exact (clos_subset adj _ p).trans (Finset.insert_subset hp
      (Finset.Subset.refl _))
  have hkey : ∀ C ∈ classesOf adj (A ∪ B),
      (f C ∈ classesOf adj A ∪ classesOf adj B) ∧ f C ⊆ C ∧
        (f C).Nonempty := by
    intro C hC
    obtain ⟨p, hp, hclp⟩ := Finset.mem_image.1 hC
    have hCsub : C ⊆ A ∪ B := hsubset C hC
    by_cases hA : (C ∩ A).Nonempty
    · have hx := hA.choose_spec
      rw [Finset.mem_inter] at hx
      have hfc : f C = clos adj A hA.choose := by
        rw [hfdef]; simp [hA]
      refine ⟨?_, ?_, ?_⟩
      · rw [hfc]
        exact Finset.mem_union_left _
          (Finset.mem_image.2 ⟨hA.choose, hx.2, rfl⟩)
      · rw [hfc]
        have h1 : clos adj A hA.choose ⊆ clos adj (A ∪ B) hA.choose :=
          clos_mono_carrier adj Finset.subset_union_left _
        have h2 : clos adj (A ∪ B) hA.choose = clos adj (A ∪ B) p := by
          apply clos_eq_of_mem adj hsym hp
          rw [hclp]; exact hx.1
        rw [hclp] at h2
        exact h1.trans (le_of_eq h2)
      · rw [hfc]
        exact ⟨hA.choose, mem_clos_self adj A _⟩
    · have hB : (C ∩ B).Nonempty := by
        obtain ⟨x, hxC⟩ : C.Nonempty := by
          refine ⟨p, ?_⟩; rw [← hclp]; exact mem_clos_self adj _ p
        rcases Finset.mem_union.1 (hCsub hxC) with hxA | hxB
        · exact (hA ⟨x, Finset.mem_inter.2 ⟨hxC, hxA⟩⟩).elim
        · exact ⟨x, Finset.mem_inter.2 ⟨hxC, hxB⟩⟩
      have hx := hB.choose_spec
      rw [Finset.mem_inter] at hx
      have hfc : f C = clos adj B hB.choose := by
        rw [hfdef]; simp [hA, hB]
      refine ⟨?_, ?_, ?_⟩
      · rw [hfc]
        exact Finset.mem_union_right _
          (Finset.mem_image.2 ⟨hB.choose, hx.2, rfl⟩)
      · rw [hfc]
        have h1 : clos adj B hB.choose ⊆ clos adj (A ∪ B) hB.choose :=
          clos_mono_carrier adj Finset.subset_union_right _
        have h2 : clos adj (A ∪ B) hB.choose = clos adj (A ∪ B) p := by
          apply clos_eq_of_mem adj hsym hp
          rw [hclp]; exact hx.1
        rw [hclp] at h2
        exact h1.trans (le_of_eq h2)
      · rw [hfc]
        exact ⟨hB.choose, mem_clos_self adj B _⟩
  have hinj : Set.InjOn f (classesOf adj (A ∪ B)) := by
    intro C1 h1 C2 h2 hf
    obtain ⟨p1, hp1, hc1⟩ := Finset.mem_image.1 h1
    obtain ⟨p2, hp2, hc2⟩ := Finset.mem_image.1 h2
    obtain ⟨_, hsub1, hne1⟩ := hkey C1 h1
    obtain ⟨_, hsub2, _⟩ := hkey C2 h2
    obtain ⟨x, hx⟩ := hne1
    have hx1 : x ∈ C1 := hsub1 hx
    have hx2 : x ∈ C2 := hsub2 (hf ▸ hx)
    rw [← hc1] at hx1
    rw [← hc2] at hx2
    rw [← hc1, ← hc2]
    exact clos_disjoint_or_eq adj hsym hp1 hp2 hx1 hx2
  calc (classesOf adj (A ∪ B)).card
      ≤ (classesOf adj A ∪ classesOf adj B).card :=
        Finset.card_le_card_of_injOn f
          (fun C hC => (hkey C hC).1) hinj
    _ ≤ (classesOf adj A).card + (classesOf adj B).card :=
        Finset.card_union_le _ _

end Closure

/-! ### Raster-scan component listing

`skimage.measure.label` assigns labels 1..ncomponents in raster-scan
order of first encounter.  We embed this as a fold over a scan list:
each time an element of the carrier is met that belongs to no
previously recorded component, its reachability class is appended. -/

section Scan

variable {α : Type} [DecidableEq α] (adj : α → α → Prop) [DecidableRel adj]

/-- One step of the raster labelling scan. -/
def scanStep (S : Finset α) (acc : List (Finset α)) (p : α) :
    List (Finset α) :=
  if p ∈ S ∧ ∀ C ∈ acc, p ∉ C then acc ++ [clos adj S p] else acc

/-- The list of connected components of carrier `S`, in first-encounter
order along the scan list `L`. -/
def scanComponents (L : List α) (S : Finset α) : List (Finset α) :=
  L.foldl (scanStep adj S) []

lemma scanStep_keeps_acc (S : Finset α) (acc : List (Finset α)) (p : α) :
    ∀ C ∈ acc, C ∈ scanStep adj S acc p := by
  intro C hC
  unfold scanStep
  split
  · exact List.mem_append_left _ hC
  · exact hC

/-- Fold invariant of the labelling scan. -/
lemma scan_invariant (S : Finset α) :
    ∀ (L : List α) (acc : List (Finset α)),
      (∀ C ∈ acc, ∃ p ∈ S, C = clos adj S p) → acc.Nodup →
      (∀ C ∈ L.foldl (scanStep adj S) acc, ∃ p ∈ S, C = clos adj S p) ∧
        (L.foldl (scanStep adj S) acc).Nodup ∧
        (∀ C ∈ acc, C ∈ L.foldl (scanStep adj S) acc) ∧
        (∀ q ∈ L, q ∈ S → ∃ C ∈ L.foldl (scanStep adj S) acc, q ∈ C) := by
  intro L
  induction L with
  | nil =>
    intro acc hrep hnd
    exact ⟨hrep, hnd, fun C hC => hC, by simp⟩
  | cons p L ih =>
    intro acc hrep hnd
    simp only [List.foldl_cons]
    have hrep' : ∀ C ∈ scanStep adj S acc p, ∃ r ∈ S, C = clos adj S r := by
      intro C hC
      unfold scanStep at hC
      split at hC
      · rcases List.mem_append.1 hC with h | h
        · exact hrep C h
        · rename_i hcond
          rw [List.mem_singleton] at h
          exact ⟨p, hcond.1, h⟩
      · exact hrep C hC
    have hnd' : (scanStep adj S acc p).Nodup := by
      unfold scanStep
      split
      · rename_i hcond
        rw [List.nodup_append]
        refine ⟨hnd, List.nodup_singleton _, ?_⟩
        intro C hC
        rw [List.mem_singleton]
        intro heq
        have hpC : p ∈ C := by
          rw [heq]; exact mem_clos_self adj S p
        exact hcond.2 C hC hpC
      · exact hnd
    obtain ⟨h1, h2, h3, h4⟩ := ih (scanStep adj S acc p) hrep' hnd'
    refine ⟨h1, h2, ?_, ?_⟩
    · intro C hC
      exact h3 C (scanStep_keeps_acc adj S acc p C hC)
    · intro q hq hqS
      rcases List.mem_cons.1 hq with rfl | hq'
      · -- the scanned element itself is covered by the step
        have : ∃ C ∈ scanStep adj S acc q, q ∈ C := by
          unfold scanStep
          split
          · exact ⟨clos adj S q, List.mem_append_right _
              (List.mem_singleton.2 rfl), mem_clos_self adj S q⟩
          · rename_i hcond
            push_neg at hcond
            obtain ⟨C, hC, hqC⟩ := hcond hqS
            exact ⟨C, hC, hqC⟩
        obtain ⟨C, hC, hqC⟩ := this
        exact ⟨C, h3 C hC, hqC⟩
      · exact h4 q hq' hqS

/-- The components produced by the scan are exactly the reachability
classes of the carrier, with no duplicates. -/
lemma scanComponents_toFinset (hsym : ∀ a b, adj a b → adj b a)
    {L : List α} {S : Finset α} (hS : ∀ q ∈ S, q ∈ L) :
    (scanComponents adj L S).toFinset = classesOf adj S := by
  obtain ⟨h1, _h2, _h3, h4⟩ :=
    scan_invariant adj S L [] (by simp) List.nodup_nil
  apply Finset.Subset.antisymm
  · intro C hC
    rw [List.mem_toFinset] at hC
    obtain ⟨p, hp, rfl⟩ := h1 C hC
    exact Finset.mem_image.2 ⟨p, hp, rfl⟩
  · intro C hC
    obtain ⟨q, hq, rfl⟩ := Finset.mem_image.1 hC
    obtain ⟨D, hD, hqD⟩ := h4 q (hS q hq) hq
    obtain ⟨r, hr, rfl⟩ := h1 D hD
    rw [List.mem_toFinset]
    rw [clos_eq_of_mem adj hsym hr hqD]
    exact hD

lemma scanComponents_nodup {L : List α} {S : Finset α} :
    (scanComponents adj L S).Nodup :=
  (scan_invariant adj S L [] (by simp) List.nodup_nil).2.1

/-- The number of scanned components is the number of reachability
classes of the carrier. -/
lemma scanComponents_length (hsym : ∀ a b, adj a b → adj b a)
    {L : List α} {S : Finset α} (hS : ∀ q ∈ S, q ∈ L) :
    (scanComponents adj L S).length = (classesOf adj S).card := by
  rw [← scanComponents_toFinset adj hsym hS]
  exact (List.toFinset_card_of_nodup (scanComponents_nodup adj)).symm

/-- Every scanned component is the class of one of its members, which
lies in the carrier. -/
lemma scanComponents_mem {L : List α} {S : Finset α} {C : Finset α}
    (hC : C ∈ scanComponents adj L S) : ∃ p ∈ S, C = clos adj S p :=
  (scan_invariant adj S L [] (by simp) List.nodup_nil).1 C hC

end Scan

/-! ### Masks as grids of naturals

A numpy 2-D array is embedded as a list of rows.  `gget` is cell
access with default 0 (all pipeline accesses are in bounds). -/

abbrev Grid := List (List ℕ)

def gridH (m : Grid) : ℕ := m.length

def gridW (m : Grid) : ℕ := (m.getD 0 []).length

def gget (m : Grid) (p : Pos) : ℕ := (m.getD p.1 []).getD p.2 0

/-- The grid is a rectangular h-by-w array. -/
def Shaped (h w : ℕ) (m : Grid) : Prop :=
  m.length = h ∧ ∀ i, i < h → (m.getD i []).length = w

/-- All cells hold 0 or 1. -/
def BinaryGrid (m : Grid) : Prop :=
  ∀ i, i < gridH m → ∀ j, j < gridW m → gget m (i, j) ≤ 1

instance (h w : ℕ) (m : Grid) : Decidable (Shaped h w m) := by
  unfold Shaped; exact inferInstance

instance (m : Grid) : Decidable (BinaryGrid m) := by
  unfold BinaryGrid; exact inferInstance

/-- Raster-scan (row-major) enumeration of the cells of an h-by-w
grid, the order in which numpy enumerates indices. -/
def rasterPositions (h w : ℕ) : List Pos :=
  (List.range h).flatMap (fun i => (List.range w).map (fun j => (i, j)))

lemma mem_rasterPositions {h w : ℕ} {p : Pos} :
    p ∈ rasterPositions h w ↔ p.1 < h ∧ p.2 < w := by
  unfold rasterPositions
  rw [List.mem_flatMap]
  constructor
  · rintro ⟨i, hi, hp⟩
    rw [List.mem_map] at hp
    obtain ⟨j, hj, rfl⟩ := hp
    exact ⟨List.mem_range.1 hi, List.mem_range.1 hj⟩
  · rintro ⟨h1, h2⟩
    refine ⟨p.1, List.mem_range.2 h1, List.mem_map.2 ⟨p.2, List.mem_range.2 h2, rfl⟩⟩

/-- Foreground cells of a grid: in-bounds cells with a non-zero value. -/
def fg (m : Grid) : Finset Pos :=
  ((rasterPositions (gridH m) (gridW m)).toFinset).filter
    (fun p => gget m p ≠ 0)

lemma mem_fg_iff {m : Grid} {p : Pos} :
    p ∈ fg m ↔ (p.1 < gridH m ∧ p.2 < gridW m) ∧ gget m p ≠ 0 := by
  unfold fg
  rw [Finset.mem_filter, List.mem_toFinset, mem_rasterPositions]

/-- Clipping used by `merge_masks`: `mask[mask>1] = 1`. -/
def clip1 (v : ℕ) : ℕ := if v > 1 then 1 else v

/-- Embedding of `Analyzer.merge_masks`: elementwise sum clipped at 1. -/
def merge_masks (m1 m2 : Grid) : Grid :=
  List.zipWith (fun r1 r2 => List.zipWith (fun a b => clip1 (a + b)) r1 r2)
    m1 m2

/-- Components of a mask's foreground, in raster order of first
encounter: the embedding of `extract_mask_connected_components`
(`skimage.measure.label` through the RasterLabeler contract of spec
section 4.1, connectivity 1); component with label `v` is entry `v-1`. -/
def maskComponents (m : Grid) : List (Finset Pos) :=
  scanComponents adj4 (rasterPositions (gridH m) (gridW m)) (fg m)

/-- Number of connected components reported for a mask. -/
def ncomp (m : Grid) : ℕ := (maskComponents m).length

/-- Embedding of `Analyzer.are_mask_connected`: count components of
both masks and of their merge; connected unless the counts add up. -/
def are_mask_connected (m1 m2 : Grid) : Bool :=
  let ncomponents1 := ncomp m1
  let ncomponents2 := ncomp m2
  let ncomponents := ncomp (merge_masks m1 m2)
  if ncomponents = ncomponents1 + ncomponents2 then false else true

/-- Binary grid with value 1 exactly on a given set of cells
(`np.where(labels == k, 1, 0)` / `extracted_mask[indices] = 1`). -/
def gridOfFinset (h w : ℕ) (S : Finset Pos) : Grid :=
  (List.range h).map (fun i =>
    (List.range w).map (fun j => if (i, j) ∈ S then 1 else 0))

/-! ### Basic grid lemmas -/

lemma zipWith_getD {β : Type} (f : β → β → β) (d : β) :
    ∀ (l1 l2 : List β) (n : ℕ), n < l1.length → n < l2.length →
      (List.zipWith f l1 l2).getD n d = f (l1.getD n d) (l2.getD n d) := by
  intro l1
  induction l1 with
  | nil => intro l2 n h1 _; simp at h1
  | cons a l1 ih =>
    intro l2 n h1 h2
    cases l2 with
    | nil => simp at h2
    | cons b l2 =>
      cases n with
      | zero => simp
      | succ n =>
        simp only [List.zipWith_cons_cons, List.getD_cons_succ]
        exact ih l2 n (by simpa using h1) (by simpa using h2)

lemma shaped_gridH {h w : ℕ} {m : Grid} (hm : Shaped h w m) :
    gridH m = h := hm.1

lemma shaped_gridW {h w : ℕ} {m : Grid} (hm : Shaped h w m) (hh : 0 < h) :
    gridW m = w := hm.2 0 hh

lemma merge_shaped {h w : ℕ} {m1 m2 : Grid} (h1 : Shaped h w m1)
    (h2 : Shaped h w m2) : Shaped h w (merge_masks m1 m2) := by
  constructor
  · rw [merge_masks, List.length_zipWith, h1.1, h2.1, Nat.min_self]
  · intro i hi
    rw [merge_masks, zipWith_getD _ _ _ _ i (h1.1 ▸ hi) (h2.1 ▸ hi),
      List.length_zipWith, h1.2 i hi, h2.2 i hi, Nat.min_self]

lemma gget_merge {h w : ℕ} {m1 m2 : Grid} (h1 : Shaped h w m1)
    (h2 : Shaped h w m2) {p : Pos} (hph : p.1 < h) (hpw : p.2 < w) :
    gget (merge_masks m1 m2) p = clip1 (gget m1 p + gget m2 p) := by
  unfold gget
  rw [merge_masks, zipWith_getD _ _ _ _ p.1 (h1.1 ▸ hph) (h2.1 ▸ hph)]
  exact zipWith_getD _ _ _ _ p.2
    (by rw [h1.2 p.1 hph]; exact hpw) (by rw [h2.2 p.1 hph]; exact hpw)

lemma clip1_eq_zero {v : ℕ} : clip1 v = 0 ↔ v = 0 := by
  unfold clip1; split <;> omega

lemma clip1_le_one (v : ℕ) : clip1 v ≤ 1 := by
  unfold clip1; split <;> omega

lemma shaped_nil_of_zero {w : ℕ} {m : Grid} (hm : Shaped 0 w m) : m = [] :=
  List.length_eq_zero.1 hm.1

/-- Merging equal-shape masks unions their foregrounds. -/
lemma fg_merge {h w : ℕ} {m1 m2 : Grid} (h1 : Shaped h w m1)
    (h2 : Shaped h w m2) :
    fg (merge_masks m1 m2) = fg m1 ∪ fg m2 := by
  by_cases hh : h = 0
  · subst hh
    rw [shaped_nil_of_zero h1, shaped_nil_of_zero h2]
    rfl
  have hh' : 0 < h := Nat.pos_of_ne_zero hh
  have hm := merge_shaped h1 h2
  ext p
  rw [Finset.mem_union, mem_fg_iff, mem_fg_iff, mem_fg_iff,
    shaped_gridH h1, shaped_gridH h2, shaped_gridH hm,
    shaped_gridW h1 hh', shaped_gridW h2 hh', shaped_gridW hm hh']
  constructor
  · rintro ⟨⟨hph, hpw⟩, hne⟩
    rw [gget_merge h1 h2 hph hpw] at hne
    rw [Ne, clip1_eq_zero] at hne
    by_cases hz : gget m1 p = 0
    · right; exact ⟨⟨hph, hpw⟩, by omega⟩
    · left; exact ⟨⟨hph, hpw⟩, hz⟩
  · rintro (⟨⟨hph, hpw⟩, hne⟩ | ⟨⟨hph, hpw⟩, hne⟩) <;>
      refine ⟨⟨hph, hpw⟩, ?_⟩ <;>
      rw [gget_merge h1 h2 hph hpw, Ne, clip1_eq_zero] <;> omega

lemma fg_subset_raster (m : Grid) :
    ∀ q ∈ fg m, q ∈ rasterPositions (gridH m) (gridW m) := by
  intro q hq
  rw [mem_fg_iff] at hq
  exact mem_rasterPositions.2 hq.1

/-- The reported component count is the number of reachability classes
of the foreground. -/
lemma ncomp_eq_classes (m : Grid) :
    ncomp m = (classesOf adj4 (fg m)).card :=
  scanComponents_length adj4 adj4_symm (fg_subset_raster m)

/-- Component-count subadditivity: the merge of two equal-shape masks
has at most as many components as the two masks together. -/
lemma ncomp_merge_le {h w : ℕ} {m1 m2 : Grid} (h1 : Shaped h w m1)
    (h2 : Shaped h w m2) :
    ncomp (merge_masks m1 m2) ≤ ncomp m1 + ncomp m2 := by
  rw [ncomp_eq_classes, ncomp_eq_classes, ncomp_eq_classes,
    fg_merge h1 h2]
  exact classesOf_union_le adj4 adj4_symm (fg m1) (fg m2)

/-! ### Algebra of mask merging (spec section 4.5: union is
associative/commutative, folding is order-independent) -/

lemma zipWith_comm_gen {β : Type} (f : β → β → β)
    (hf : ∀ a b, f a b = f b a) :
    ∀ l1 l2 : List β, List.zipWith f l1 l2 = List.zipWith f l2 l1 := by
  intro l1
  induction l1 with
  | nil => intro l2; cases l2 <;> simp
  | cons a l1 ih =>
    intro l2
    cases l2 with
    | nil => simp
    | cons b l2 => simp [hf a b, ih l2]

lemma zipWith_assoc_gen {β : Type} (f : β → β → β)
    (hf : ∀ a b c, f (f a b) c = f a (f b c)) :
    ∀ l1 l2 l3 : List β,
      List.zipWith f (List.zipWith f l1 l2) l3 =
        List.zipWith f l1 (List.zipWith f l2 l3) := by
  intro l1
  induction l1 with
  | nil => intro l2 l3; simp
  | cons a l1 ih =>
    intro l2 l3
    cases l2 with
    | nil => simp
    | cons b l2 =>
      cases l3 with
      | nil => simp
      | cons c l3 => simp [hf a b c, ih l2 l3]

lemma clip1_add_left (x c : ℕ) : clip1 (clip1 x + c) = clip1 (x + c) := by
  unfold clip1
  split_ifs <;> omega

lemma clip1_add_right (a x : ℕ) : clip1 (a + clip1 x) = clip1 (a + x) := by
  rw [Nat.add_comm a (clip1 x), Nat.add_comm a x]
  exact clip1_add_left x a

/-- merge_masks is commutative (no shape hypotheses needed: zipWith
truncation is symmetric too). -/
lemma merge_masks_comm (m1 m2 : Grid) :
    merge_masks m1 m2 = merge_masks m2 m1 := by
  unfold merge_masks
  apply zipWith_comm_gen
  intro r1 r2
  apply zipWith_comm_gen
  intro a b
  rw [Nat.add_comm]

/-- merge_masks is associative. -/
lemma merge_masks_assoc (m1 m2 m3 : Grid) :
    merge_masks (merge_masks m1 m2) m3 =
      merge_masks m1 (merge_masks m2 m3) := by
  unfold merge_masks
  apply zipWith_assoc_gen
  intro r1 r2 r3
  apply zipWith_assoc_gen
  intro a b c
  rw [clip1_add_left, clip1_add_right, Nat.add_assoc]

/-- Folding of the member masks of a component, as done by the merge
loops of `extract_gt_masks` and `extract_det_masks` (`j == 0` seeds
the accumulator, later members are merged with `merge_masks`). -/
def mergeFold : List Grid → Grid
  | [] => []
  | m :: rest => rest.foldl merge_masks m

lemma foldl_merge_shaped {h w : ℕ} :
    ∀ {l : List Grid} {m : Grid}, Shaped h w m →
      (∀ g ∈ l, Shaped h w g) → Shaped h w (l.foldl merge_masks m) := by
  intro l
  induction l with
  | nil => intro m hm _; exact hm
  | cons a l ih =>
    intro m hm hl
    simp only [List.foldl_cons]
    exact ih (merge_shaped hm (hl a (List.mem_cons_self _ _)))
      (fun g hg => hl g (List.mem_cons_of_mem a hg))

lemma fg_foldl_merge {h w : ℕ} :
    ∀ {l : List Grid} {m : Grid}, Shaped h w m →
      (∀ g ∈ l, Shaped h w g) →
      fg (l.foldl merge_masks m) =
        l.foldl (fun acc g => acc ∪ fg g) (fg m) := by
  intro l
  induction l with
  | nil => intro m _ _; rfl
  | cons a l ih =>
    intro m hm hl
    simp only [List.foldl_cons]
    rw [ih (merge_shaped hm (hl a (List.mem_cons_self _ _)))
      (fun g hg => hl g (List.mem_cons_of_mem a hg)),
      fg_merge hm (hl a (List.mem_cons_self _ _))]

lemma foldl_fg_union_perm :
    ∀ {l l' : List Grid}, l.Perm l' →
      ∀ init : Finset Pos,
        l.foldl (fun acc g => acc ∪ fg g) init =
          l'.foldl (fun acc g => acc ∪ fg g) init := by
  intro l l' hp
  induction hp with
  | nil => intro init; rfl
  | cons x _ ih => intro init; simp only [List.foldl_cons]; exact ih _
  | swap x y l =>
    intro init
    simp only [List.foldl_cons]
    rw [Finset.union_right_comm]
  | trans _ _ ih1 ih2 => intro init; rw [ih1 init, ih2 init]

lemma gridOfFinset_row {h w : ℕ} (S : Finset Pos) {i : ℕ} (hi : i < h) :
    (gridOfFinset h w S).getD i [] =
      (List.range w).map (fun j => if (i, j) ∈ S then 1 else 0) := by
  unfold gridOfFinset
  rw [List.getD_eq_getElem _ _ (by simpa using hi)]
  rw [List.getElem_map, List.getElem_range]

lemma gridOfFinset_shaped (h w : ℕ) (S : Finset Pos) :
    Shaped h w (gridOfFinset h w S) := by
  constructor
  · simp [gridOfFinset]
  · intro i hi
    rw [gridOfFinset_row S hi]
    simp

lemma gget_gridOfFinset {h w : ℕ} (S : Finset Pos) {i j : ℕ}
    (hi : i < h) (hj : j < w) :
    gget (gridOfFinset h w S) (i, j) = if (i, j) ∈ S then 1 else 0 := by
  show ((gridOfFinset h w S).getD i []).getD j 0 = _
  rw [gridOfFinset_row S hi]
  rw [List.getD_eq_getElem _ _ (by simpa using hj)]
  rw [List.getElem_map, List.getElem_range]

/-- Two equal-shape rectangular grids with equal in-bounds cells are
equal. -/
lemma grid_eq_of_gget {h w : ℕ} {m m' : Grid} (hm : Shaped h w m)
    (hm' : Shaped h w m')
    (hval : ∀ i j, i < h → j < w → gget m (i, j) = gget m' (i, j)) :
    m = m' := by
  apply List.ext_getElem
  · rw [hm.1, hm'.1]
  intro i hi1 hi2
  have hih : i < h := by rwa [hm.1] at hi1
  have hrow : m[i].length = w := by
    have := hm.2 i hih
    rwa [List.getD_eq_getElem _ _ hi1] at this
  have hrow' : m'[i].length = w := by
    have := hm'.2 i hih
    rwa [List.getD_eq_getElem _ _ hi2] at this
  apply List.ext_getElem
  · rw [hrow, hrow']
  intro j hj1 hj2
  have hjw : j < w := by rwa [hrow] at hj1
  have e1 : gget m (i, j) = m[i][j] := by
    show (m.getD i []).getD j 0 = _
    rw [List.getD_eq_getElem _ _ hi1, List.getD_eq_getElem _ _ hj1]
  have e2 : gget m' (i, j) = m'[i][j] := by
    show (m'.getD i []).getD j 0 = _
    rw [List.getD_eq_getElem _ _ hi2, List.getD_eq_getElem _ _ hj2]
  rw [← e1, ← e2]
  exact hval i j hih hjw

/-- A rectangular 0/1 mask is determined by its foreground. -/
lemma eq_gridOfFinset_fg {h w : ℕ} {m : Grid} (hm : Shaped h w m)
    (hb : BinaryGrid m) : m = gridOfFinset h w (fg m) := by
  apply grid_eq_of_gget hm (gridOfFinset_shaped h w (fg m))
  intro i j hih hjw
  rw [gget_gridOfFinset (fg m) hih hjw]
  by_cases hz : gget m (i, j) = 0
  · rw [if_neg, hz]
    rw [mem_fg_iff]
    push_neg
    intro _
    exact hz
  · rw [if_pos]
    · have hle : gget m (i, j) ≤ 1 := by
        apply hb i _ j
        · rw [shaped_gridW hm (by omega)]; exact hjw
        · rw [shaped_gridH hm]; exact hih
      omega
    · rw [mem_fg_iff, shaped_gridH hm, shaped_gridW hm (by omega)]
      exact ⟨⟨hih, hjw⟩, hz⟩
lemma merge_binary {h w : ℕ} {m1 m2 : Grid} (h1 : Shaped h w m1)
    (h2 : Shaped h w m2) : BinaryGrid (merge_masks m1 m2) := by
  intro i hi j hj
  have hm := merge_shaped h1 h2
  rw [shaped_gridH hm] at hi
  have hh : 0 < h := by omega
  rw [shaped_gridW hm hh] at hj
  rw [gget_merge h1 h2 hi hj]
  exact clip1_le_one _

lemma foldl_merge_binary {h w : ℕ} :
    ∀ {l : List Grid} {m : Grid}, Shaped h w m → BinaryGrid m →
      (∀ g ∈ l, Shaped h w g) → BinaryGrid (l.foldl merge_masks m) := by
  intro l
  induction l with
  | nil => intro m _ hb _; exact hb
  | cons a l ih =>
    intro m hm hb hl
    simp only [List.foldl_cons]
    exact ih (merge_shaped hm (hl a (List.mem_cons_self _ _)))
      (merge_binary hm (hl a (List.mem_cons_self _ _)))
      (fun g hg => hl g (List.mem_cons_of_mem a hg))

/-- Folding all member masks of a group is invariant under
permutations of the member order, for equal-shape 0/1 masks. -/
lemma mergeFold_perm {h w : ℕ} {l l' : List Grid} (hperm : l.Perm l')
    (hl : ∀ g ∈ l, Shaped h w g ∧ BinaryGrid g) (hne : l ≠ []) :
    mergeFold l = mergeFold l' := by
  have hl' : ∀ g ∈ l', Shaped h w g ∧ BinaryGrid g :=
    fun g hg => hl g (hperm.symm.subset hg)
  have hne' : l' ≠ [] := by
    intro hcon
    rw [hcon] at hperm
    exact hne (List.Perm.eq_nil hperm)
  obtain ⟨a, la, rfl⟩ := List.exists_cons_of_ne_nil hne
  obtain ⟨b, lb, rfl⟩ := List.exists_cons_of_ne_nil hne'
  -- both folds are shaped binary masks with the same foreground
  have hsa : Shaped h w (mergeFold (a :: la)) :=
    foldl_merge_shaped (hl a (List.mem_cons_self _ _)).1
      (fun g hg => (hl g (List.mem_cons_of_mem a hg)).1)
  have hsb : Shaped h w (mergeFold (b :: lb)) :=
    foldl_merge_shaped (hl' b (List.mem_cons_self _ _)).1
      (fun g hg => (hl' g (List.mem_cons_of_mem b hg)).1)
  have hba : BinaryGrid (mergeFold (a :: la)) :=
    foldl_merge_binary (hl a (List.mem_cons_self _ _)).1
      (hl a (List.mem_cons_self _ _)).2
      (fun g hg => (hl g (List.mem_cons_of_mem a hg)).1)
  have hbb : BinaryGrid (mergeFold (b :: lb)) :=
    foldl_merge_binary (hl' b (List.mem_cons_self _ _)).1
      (hl' b (List.mem_cons_self _ _)).2
      (fun g hg => (hl' g (List.mem_cons_of_mem b hg)).1)
  have hfga : fg (mergeFold (a :: la)) =
      (a :: la).foldl (fun acc g => acc ∪ fg g) ∅ := by
    show fg (la.foldl merge_masks a) = _
    rw [fg_foldl_merge (hl a (List.mem_cons_self _ _)).1
      (fun g hg => (hl g (List.mem_cons_of_mem a hg)).1)]
    simp only [List.foldl_cons, Finset.empty_union]
  have hfgb : fg (mergeFold (b :: lb)) =
      (b :: lb).foldl (fun acc g => acc ∪ fg g) ∅ := by
    show fg (lb.foldl merge_masks b) = _
    rw [fg_foldl_merge (hl' b (List.mem_cons_self _ _)).1
      (fun g hg => (hl' g (List.mem_cons_of_mem b hg)).1)]
    simp only [List.foldl_cons, Finset.empty_union]
  have hfg : fg (mergeFold (a :: la)) = fg (mergeFold (b :: lb)) := by
    rw [hfga, hfgb, foldl_fg_union_perm hperm ∅]
  rw [eq_gridOfFinset_fg hsa hba, eq_gridOfFinset_fg hsb hbb, hfg]

/-! ### Undirected graph connected components -/

/-- Symmetrisation of an edge relation: the graph is undirected. -/
def symRel (edge : ℕ → ℕ → Prop) (i j : ℕ) : Prop := edge i j ∨ edge j i

instance (edge : ℕ → ℕ → Prop) [DecidableRel edge] :
    DecidableRel (symRel edge) := fun i j => by
  unfold symRel; exact inferInstance

lemma symRel_symm (edge : ℕ → ℕ → Prop) :
    ∀ a b, symRel edge a b → symRel edge b a := fun _ _ h => h.symm

/-- Modelled from the spec: `mrcnn.graph.Graph` (imported by
analyze.py) is code of this repository that is not under src/.  Spec
section 4.2 specifies: nodes are the integers 0..N-1, `add_edge`
inserts an undirected edge, and `connected_components` returns a
deterministic complete partition of all N nodes by reachability with
singleton groups preserved; the traversal order is deterministic but
otherwise unspecified, so we fix groups in order of their smallest
node with members ascending. -/
def connectedComponents (n : ℕ) (edge : ℕ → ℕ → Prop)
    [DecidableRel edge] : List (List ℕ) :=
  (scanComponents (symRel edge) (List.range n) (Finset.range n)).map
    (fun C => (List.range n).filter (fun i => decide (i ∈ C)))

lemma connectedComponents_sets {n : ℕ} {edge : ℕ → ℕ → Prop}
    [DecidableRel edge] {g : List ℕ} (hg : g ∈ connectedComponents n edge) :
    ∃ C ∈ scanComponents (symRel edge) (List.range n) (Finset.range n),
      g = (List.range n).filter (fun i => decide (i ∈ C)) := by
  rw [connectedComponents, List.mem_map] at hg
  obtain ⟨C, hC, rfl⟩ := hg
  exact ⟨C, hC, rfl⟩

/-- Each group returned by connected_components is non-empty, as
consumers of the API rely on (spec section 4.2). -/
lemma connectedComponents_nonempty {n : ℕ} {edge : ℕ → ℕ → Prop}
    [DecidableRel edge] {g : List ℕ}
    (hg : g ∈ connectedComponents n edge) : g ≠ [] := by
  obtain ⟨C, hC, rfl⟩ := connectedComponents_sets hg
  obtain ⟨p, hp, rfl⟩ := scanComponents_mem (symRel edge) hC
  have hpC : p ∈ clos (symRel edge) (Finset.range n) p :=
    mem_clos_self _ _ _
  have hpn : p ∈ List.range n := List.mem_range.2 (Finset.mem_range.1 hp)
  intro hcon
  have : p ∈ (List.range n).filter
      (fun i => decide (i ∈ clos (symRel edge) (Finset.range n) p)) :=
    List.mem_filter.2 ⟨hpn, by simpa using hpC⟩
  rw [hcon] at this
  exact List.not_mem_nil p this

/-! ### Detection mask extraction pipeline (Analyzer.extract_det_masks) -/

/-- The label test `label=='galaxy_C2' or label=='galaxy_C3'` of
analyze.py (whole-object classes are kept unsplit). -/
def isGalaxyLabel (classNames : List String) (classId : ℕ) : Bool :=
  let label := classNames.getD classId ""
  decide (label = "galaxy_C2" ∨ label = "galaxy_C3")

/-- Score-threshold selection (lines 478-492): objects with
`score < score_thr` are skipped, the rest are kept in order. -/
def selectDetections (scoreThr : ℚ) (masks : List Grid)
    (classIds : List ℕ) (scores : List ℚ) : List (Grid × ℕ × ℚ) :=
  (masks.zip (classIds.zip scores)).filter
    (fun t => decide (¬ t.2.2 < scoreThr))

/-- Insertion into a list sorted by ascending score. -/
def insertByScore (x : ℕ × ℚ) : List (ℕ × ℚ) → List (ℕ × ℚ)
  | [] => [x]
  | y :: ys => if x.2 < y.2 then x :: y :: ys else y :: insertByScore x ys

/-- `np.argsort(scores_sel)[::-1]` (line 497): indices ordered by
descending score.  numpy's default sort is unstable, so the order
among equal scores is unspecified upstream; this model fixes one
deterministic order. -/
def argsortDesc (scores : List ℚ) : List ℕ :=
  ((scores.enum).foldr insertByScore []).reverse.map (fun t => t.1)

/-- Splitting of one selected detection (lines 506-548): galaxy-class
objects are kept whole; others are split per connected component,
iteration i extracting component label i+1, all parts inheriting the
parent's class id and score. -/
def splitDetMask (classNames : List String) (m : Grid) (cid : ℕ)
    (score : ℚ) : List (Grid × ℕ × ℚ) :=
  if isGalaxyLabel classNames cid then [(m, cid, score)]
  else
    let comps := maskComponents m
    (List.range comps.length).map
      (fun i => (gridOfFinset (gridH m) (gridW m) (comps.getD i ∅),
        cid, score))

/-- The sort-then-split stage: visit the selected detections in
descending-score order and concatenate their split parts. -/
def splitAllDet (classNames : List String)
    (sel : List (Grid × ℕ × ℚ)) : List (Grid × ℕ × ℚ) :=
  ((argsortDesc (sel.map (fun t => t.2.2))).map
      (fun idx => sel.getD idx ([], 0, 0))).flatMap
    (fun t => splitDetMask classNames t.1 t.2.1 t.2.2)

/-- Pass-1 edge rule (lines 556-563): masks touch AND class ids are
equal; edges are inserted for i < j. -/
def pass1Edge (masks : List Grid) (cids : List ℕ) (i j : ℕ) : Prop :=
  are_mask_connected (masks.getD i []) (masks.getD j []) = true ∧
    cids.getD i 0 = cids.getD j 0 ∧ i < j

instance (masks : List Grid) (cids : List ℕ) :
    DecidableRel (pass1Edge masks cids) := fun i j => by
  unfold pass1Edge; exact inferInstance

/-- Pass-2 edge rule (lines 607-614): the code computes `same_class`
but assigns `mergeable = connected`, so only touching is required. -/
def pass2Edge (masks : List Grid) (cids : List ℕ) (i j : ℕ) : Prop :=
  let connected := are_mask_connected (masks.getD i []) (masks.getD j [])
  let same_class := decide (cids.getD i 0 = cids.getD j 0)
  connected = true ∧ i < j

instance (masks : List Grid) (cids : List ℕ) :
    DecidableRel (pass2Edge masks cids) := fun i j => by
  unfold pass2Edge; exact inferInstance

/-- The merge loop over pass-1 connected groups (lines 574-598): empty
groups are skipped; member masks are folded with merge_masks; the
group class id is the one left by the last loop iteration; the score
is the arithmetic mean of member scores. -/
def mergeGroups (masks : List Grid) (cids : List ℕ) (scores : List ℚ)
    (cc : List (List ℕ)) : List Grid × List ℕ × List ℚ :=
  cc.foldl
    (fun acc grp =>
      if grp.isEmpty then acc
      else
        let merged := mergeFold (grp.map (fun idx => masks.getD idx []))
        let cls := cids.getD (grp.getLastD 0) 0
        let ssum := grp.foldl (fun a idx => a + scores.getD idx 0) 0
        (acc.1 ++ [merged], acc.2.1 ++ [cls],
          acc.2.2 ++ [ssum / (grp.length : ℚ)]))
    ([], [], [])

/-- Best-score selection inside an overlap group (lines 623-637):
strict greater-than against a running best initialised to 0, with the
best index initialised to -1. -/
def selBest (scores : List ℚ) (grp : List ℕ) : ℤ × ℚ :=
  grp.foldl
    (fun st idx =>
      let score := scores.getD idx 0
      if st.2 < score then ((idx : ℤ), score) else st)
    (-1, 0)

/-- Python list indexing with negative wrap-around (a Python list
`l[-1]` is the last element), defaulting when out of range. -/
def pyGetD {β : Type} (l : List β) (i : ℤ) (d : β) : β :=
  if 0 ≤ i then l.getD i.toNat d else l.getD (l.length - (-i).toNat) d

/-- The pass-2 overlap resolution (lines 605-641): group the merged
masks by touching alone, and keep from each group the entry selected
by `selBest`. -/
def resolveOverlaps (masks : List Grid) (cids : List ℕ)
    (scores : List ℚ) : List Grid × List ℕ × List ℚ :=
  let cc := connectedComponents masks.length (pass2Edge masks cids)
  cc.foldl
    (fun acc grp =>
      if grp.isEmpty then acc
      else
        let ib := (selBest scores grp).1
        (acc.1 ++ [pyGetD masks ib []], acc.2.1 ++ [pyGetD cids ib 0],
          acc.2.2 ++ [pyGetD scores ib 0]))
    ([], [], [])

/-! ### Bounding boxes -/

structure Box where
  y1 : ℚ
  x1 : ℚ
  y2 : ℚ
  x2 : ℚ
deriving DecidableEq

/-- Modelled from the spec: `mrcnn.utils.extract_bboxes` is code of
this repository that is not under src/.  Spec section 3: a
BoundingBox is the tight (y1, x1, y2, x2) box around the instance's
foreground pixels, degenerate (all zero) when the mask has no
foreground pixels. -/
def extract_bbox (m : Grid) : Box :=
  if hne : (fg m).Nonempty then
    { y1 := (((fg m).image Prod.fst).min' (hne.image _) : ℕ)
      x1 := (((fg m).image Prod.snd).min' (hne.image _) : ℕ)
      y2 := ((((fg m).image Prod.fst).max' (hne.image _) : ℕ) : ℚ) + 1
      x2 := ((((fg m).image Prod.snd).max' (hne.image _) : ℕ) : ℚ) + 1 }
  else ⟨0, 0, 0, 0⟩

structure DetOut where
  masksFinal : List Grid
  classIdsFinal : List ℕ
  scoresFinal : List ℚ
  bboxes : List Box
  captions : List (String × ℚ)
deriving DecidableEq

/-- The mask stages of `Analyzer.extract_det_masks` (lines 460-643):
threshold selection, descending-score sort, per-component splitting,
same-class merge pass, and the overlap-resolution pass, producing the
final (masks, class ids, scores). -/
def detPipeline (classNames : List String) (scoreThr : ℚ)
    (masks : List Grid) (classIds : List ℕ) (scores : List ℚ) :
    List Grid × List ℕ × List ℚ :=
  let sel := selectDetections scoreThr masks classIds scores
  let det := splitAllDet classNames sel
  let masksDet := det.map (fun t => t.1)
  let cidsDet := det.map (fun t => t.2.1)
  let scoresDet := det.map (fun t => t.2.2)
  let cc := connectedComponents masksDet.length (pass1Edge masksDet cidsDet)
  let merged := mergeGroups masksDet cidsDet scoresDet cc
  resolveOverlaps merged.1 merged.2.1 merged.2.2

/-- The output-assembly stage of `Analyzer.extract_det_masks` (lines
645-658): bounding boxes and captions are computed for EVERY finally
selected mask (captions are embedded as (label, score) pairs; the
code only formats them). -/
def assembleDetOut (classNames : List String)
    (fin : List Grid × List ℕ × List ℚ) : DetOut :=
  { masksFinal := fin.1
    classIdsFinal := fin.2.1
    scoresFinal := fin.2.2
    bboxes := fin.1.map extract_bbox
    captions := (fin.2.1.zip fin.2.2).map
      (fun t => (classNames.getD t.1 "", t.2)) }

lemma assembleDetOut_bboxes (classNames : List String)
    (fin : List Grid × List ℕ × List ℚ) :
    (assembleDetOut classNames fin).bboxes =
      (assembleDetOut classNames fin).masksFinal.map extract_bbox := rfl

/-- Embedding of `Analyzer.extract_det_masks` (lines 460-658): the
mask stages of `detPipeline`, then the bounding-box/caption
assembly. -/
def extract_det_masks (classNames : List String) (scoreThr : ℚ)
    (masks : List Grid) (classIds : List ℕ) (scores : List ℚ) : DetOut :=
  assembleDetOut classNames
    (detPipeline classNames scoreThr masks classIds scores)

/-! ### Ground-truth splitting (Analyzer.extract_gt_masks) -/

/-- Embedding of the splittable branch of `extract_gt_masks` (lines
387-403): the loop runs over component indices i = 0..ncomponents-1
but evaluates `np.where(component_labels_gt == 1)` — the indices of
the fixed first component — on every iteration; the per-instance
class id is sampled from the raw multi-valued mask at the first
raster position of those indices. -/
def split_gt_mask (g : Grid) : List (Grid × ℕ) :=
  let comps := maskComponents g
  (List.range comps.length).map
    (fun _i =>
      let maskIndices := comps.getD 0 ∅
      let extracted := gridOfFinset (gridH g) (gridW g) maskIndices
      let objectClassid :=
        match (rasterPositions (gridH g) (gridW g)).find?
            (fun p => decide (p ∈ maskIndices)) with
        | some p => gget g p
        | none => 0
      (extracted, objectClassid))

/-! ### IoU matching and per-image performance accounting -/

/-- Modelled from the spec: `mrcnn.utils.get_iou` is code of this
repository that is not under src/.  Spec section 4.8: standard box
intersection over union with zero-area-safe handling (IoU = 0 when
the boxes do not intersect or either box has zero area). -/
def get_iou (b1 b2 : Box) : ℚ :=
  let areaA := (b1.y2 - b1.y1) * (b1.x2 - b1.x1)
  let areaB := (b2.y2 - b2.y1) * (b2.x2 - b2.x1)
  if areaA ≤ 0 ∨ areaB ≤ 0 then 0
  else
    let ih := min b1.y2 b2.y2 - max b1.y1 b2.y1
    let iw := min b1.x2 b2.x2 - max b1.x1 b2.x1
    if ih ≤ 0 ∨ iw ≤ 0 then 0
    else
      let inter := ih * iw
      let uni := areaA + areaB - inter
      if uni ≤ 0 then 0 else inter / uni

lemma get_iou_nonneg (b1 b2 : Box) : 0 ≤ get_iou b1 b2 := by
  unfold get_iou
  simp only []
  split_ifs with h1 h2 h3
  · exact le_refl 0
  · exact le_refl 0
  · exact le_refl 0
  · push_neg at h2 h3
    apply div_nonneg
    · exact mul_nonneg (le_of_lt h2.1) (le_of_lt h2.2)
    · exact le_of_lt h3

/-- The running best-IoU fold of `compute_performances` (lines
686-693 and 723-729): `if iou > iou_thr and iou >= iou_best` moves
the best index and value; the index starts at -1, the best at 0. -/
def bestAux (thr : ℚ) : List ℚ → ℕ → ℤ × ℚ → ℤ × ℚ
  | [], _, st => st
  | x :: rest, j, st =>
      if thr < x ∧ st.2 ≤ x then bestAux thr rest (j + 1) ((j : ℤ), x)
      else bestAux thr rest (j + 1) st

/-- Best-match search over a list of IoU values. -/
def bestIdx (thr : ℚ) (ious : List ℚ) : ℤ × ℚ := bestAux thr ious 0 (-1, 0)

/-- Updating a per-class counter (`v[0][k] += 1`). -/
def bump (f : ℕ → ℚ) (k : ℕ) : ℕ → ℚ := Function.update f k (f k + 1)

/-- Updating a matrix entry (`C[i][j] += 1`). -/
def bump2 (f : ℕ → ℕ → ℚ) (i j : ℕ) : ℕ → ℕ → ℚ :=
  fun a b => if a = i ∧ b = j then f a b + 1 else f a b

/-- One iteration of the ground-truth matching loop of
`Analyzer.compute_performances` (lines 676-701): count the true
object, find the best-IoU detection, and on success increment
`confusion_matrix[class_id_gt][class_id_det]`. -/
def gtStep (dets : List (Box × ℕ)) (thr : ℚ)
    (st : (ℕ → ℕ → ℚ) × (ℕ → ℚ)) (gt : Box × ℕ) :
    (ℕ → ℕ → ℚ) × (ℕ → ℚ) :=
  let nt' := bump st.2 gt.2
  let ious := dets.map (fun d => get_iou d.1 gt.1)
  let ib := (bestIdx thr ious).1
  if ib = -1 then (st.1, nt')
  else (bump2 st.1 gt.2 ((dets.getD ib.toNat (⟨0, 0, 0, 0⟩, 0)).2), nt')

/-- One iteration of the purity loop of
`Analyzer.compute_performances` (lines 715-735): count the detection,
find the best-IoU ground-truth box with the same comparison rule, and
on a class-matching success increment `nobjs_det_right`. -/
def detStep (gts : List (Box × ℕ)) (thr : ℚ)
    (st : (ℕ → ℚ) × (ℕ → ℚ)) (d : Box × ℕ) : (ℕ → ℚ) × (ℕ → ℚ) :=
  let nd' := bump st.1 d.2
  let ious := gts.map (fun g => get_iou d.1 g.1)
  let ib := (bestIdx thr ious).1
  if ib ≠ -1 ∧ (gts.getD ib.toNat (⟨0, 0, 0, 0⟩, 0)).2 = d.2
  then (nd', bump st.2 d.2) else (nd', st.2)

/-- Per-image performance state of `Analyzer.compute_performances`. -/
structure PerfState where
  cm : ℕ → ℕ → ℚ
  nt : ℕ → ℚ
  nd : ℕ → ℚ
  ndr : ℕ → ℚ

/-- Embedding of the accumulation loops of
`Analyzer.compute_performances`: ground truths and detections are
(box, class id) pairs; all counters start from zero. -/
def compute_performances (gts dets : List (Box × ℕ)) (thr : ℚ) :
    PerfState :=
  let cmnt := gts.foldl (gtStep dets thr) (fun _ _ => 0, fun _ => 0)
  let ndndr := dets.foldl (detStep gts thr) (fun _ => 0, fun _ => 0)
  { cm := cmnt.1, nt := cmnt.2, nd := ndndr.1, ndr := ndndr.2 }

/-! ### ModelTester -/

/-- The dataset guard of `Analyzer.get_data` (lines 250-252): without
a bound dataset the per-image analysis fails with status -1, which
`inspect_results` propagates to the test loop. -/
def get_data_status {δ : Type} (dataset : Option δ) : ℤ :=
  match dataset with
  | none => -1
  | some _ => 0

/-- The images actually analyzed by the loop of `ModelTester.test`
(lines 75-97): `nimg` is incremented on entering the body and the
loop breaks, BEFORE analyzing the current image, once
`n_max_img > 0 and nimg >= n_max_img`. -/
def testAnalyzed {β : Type} (m : ℤ) : ℕ → List β → List β
  | _, [] => []
  | nimg, img :: rest =>
      if 0 < m ∧ m ≤ ((nimg + 1 : ℕ) : ℤ) then []
      else img :: testAnalyzed m (nimg + 1) rest

/-- Adding one image's outcome to the running totals: a failed image
(`none`) leaves the accumulators untouched, a successful one is summed
by `update_performances`. -/
def addContribution {M : Type} [Add M] (acc : M) : Option M → M
  | none => acc
  | some c => acc + c

/-- Accumulated totals of `ModelTester.test`: an image whose analysis
fails (status < 0, modelled as `none`) is skipped with `continue`;
successful contributions are added by `update_performances`. -/
def testTotals {M : Type} [AddCommMonoid M] (m : ℤ) :
    ℕ → M → List (Option M) → M
  | _, acc, [] => acc
  | nimg, acc, o :: rest =>
      if 0 < m ∧ m ≤ ((nimg + 1 : ℕ) : ℤ) then acc
      else testTotals m (nimg + 1) (addContribution acc o) rest

/-- Matrix entry update used by the normalisation loop. -/
def upd2 (f : ℕ → ℕ → ℚ) (i j : ℕ) (v : ℚ) : ℕ → ℕ → ℚ :=
  fun a b => if a = i ∧ b = j then v else f a b

/-- Row normalisation of `ModelTester.compute_performances` (lines
134-141): rows with `nobjs_true <= 0` are skipped, leaving the
zero-initialised row; the other rows are divided by `nobjs_true`. -/
def normalizeCM (n : ℕ) (cm : ℕ → ℕ → ℚ) (nt : ℕ → ℚ) : ℕ → ℕ → ℚ :=
  (List.range n).foldl
    (fun acc i =>
      if nt i ≤ 0 then acc
      else (List.range n).foldl
        (fun acc2 j => upd2 acc2 i j (cm i j / nt i)) acc)
    (fun _ _ => 0)

/-- Purity computation of `ModelTester.compute_performances` (lines
144-148): classes with `nobjs_det <= 0` are skipped (purity stays
0); the others get `nobjs_det_right / nobjs_det`. -/
def computePurity (n : ℕ) (nd ndr : ℕ → ℚ) : ℕ → ℚ :=
  (List.range n).foldl
    (fun acc j =>
      if nd j ≤ 0 then acc
      else Function.update acc j (ndr j / nd j))
    (fun _ => 0)

/-! ### Characterisation of the best-match fold -/

lemma bestAux_append (thr : ℚ) (l1 l2 : List ℚ) :
    ∀ (j0 : ℕ) (st : ℤ × ℚ),
      bestAux thr (l1 ++ l2) j0 st =
        bestAux thr l2 (j0 + l1.length) (bestAux thr l1 j0 st) := by
  induction l1 with
  | nil => intro j0 st; simp [bestAux]
  | cons x l1 ih =>
    intro j0 st
    simp only [List.cons_append, bestAux, List.length_cons]
    have harith : j0 + 1 + l1.length = j0 + (l1.length + 1) := by omega
    split
    · rw [show List.append l1 l2 = l1 ++ l2 from rfl, ih, harith]
    · rw [show List.append l1 l2 = l1 ++ l2 from rfl, ih, harith]

/-- What the best-match fold computes: either the initial state
(-1, 0) when no entry qualifies (is strictly above the threshold), or
the position of the LAST qualifying entry attaining the maximum
qualifying value (the `>=` comparison breaks exact ties in favour of
the later-scanned entry). -/
def BestSpec (thr : ℚ) (l : List ℚ) (st : ℤ × ℚ) : Prop :=
  (st = (-1, 0) ∧ ∀ (k : ℕ) (x : ℚ), l.get? k = some x → ¬ thr < x) ∨
  (∃ (k : ℕ) (y : ℚ), st = ((k : ℤ), y) ∧ l.get? k = some y ∧ thr < y ∧
    (∀ (i : ℕ) (z : ℚ), l.get? i = some z → thr < z → z ≤ y) ∧
    (∀ (i : ℕ) (z : ℚ), l.get? i = some z → thr < z → k < i → z < y))

lemma bestIdx_spec (thr : ℚ) (hthr : 0 ≤ thr) (l : List ℚ) :
    BestSpec thr l (bestIdx thr l) := by
  induction l using List.reverseRecOn with
  | nil =>
    left
    refine ⟨rfl, ?_⟩
    intro k x h
    simp at h
  | append_singleton l x ih =>
    have hstep : bestIdx thr (l ++ [x]) =
        if thr < x ∧ (bestIdx thr l).2 ≤ x
        then ((l.length : ℤ), x) else bestIdx thr l := by
      rw [bestIdx, bestAux_append]
      rw [show (0 + l.length) = l.length by omega]
      rw [← bestIdx]
      rcases h : bestIdx thr l with ⟨ib, sb⟩
      simp [bestAux]
    rw [hstep]
    by_cases hcond : thr < x ∧ (bestIdx thr l).2 ≤ x
    · rw [if_pos hcond]
      right
      refine ⟨l.length, x, rfl, List.get?_concat_length l x, hcond.1, ?_, ?_⟩
      · intro i z hget hz
        rcases Nat.lt_trichotomy i l.length with hlt | heq | hgt
        · rw [List.get?_append hlt] at hget
          rcases ih with ⟨hst, hnoq⟩ | ⟨k0, y0, hst, _, _, hmax, _⟩
          · exact absurd hz (hnoq i z hget)
          · have h1 : z ≤ y0 := hmax i z hget hz
            have h2 : y0 ≤ x := by
              have := hcond.2
              rw [hst] at this
              exact this
            exact le_trans h1 h2
        · subst heq
          rw [List.get?_concat_length] at hget
          have hz2 := Option.some_inj.1 hget
          subst hz2
          exact le_rfl
        · have hnone : (l ++ [x]).get? i = none := by
            rw [List.get?_eq_none]
            simp only [List.length_append, List.length_singleton]
            omega
          rw [hnone] at hget
          exact absurd hget (by simp)
      · intro i z hget hz hki
        have hnone : (l ++ [x]).get? i = none := by
          rw [List.get?_eq_none]
          simp only [List.length_append, List.length_singleton]
          omega
        rw [hnone] at hget
        exact absurd hget (by simp)
    · rw [if_neg hcond]
      rcases ih with ⟨hst, hnoq⟩ | ⟨k0, y0, hst, hget0, hq0, hmax0, hlast0⟩
      · left
        refine ⟨hst, ?_⟩
        have hxbad : ¬ thr < x := by
          intro hx
          apply hcond
          refine ⟨hx, ?_⟩
          rw [hst]
          exact le_of_lt (lt_of_le_of_lt hthr hx)
        intro k z hget
        rcases Nat.lt_trichotomy k l.length with hlt | heq | hgt
        · rw [List.get?_append hlt] at hget
          exact hnoq k z hget
        · subst heq
          rw [List.get?_concat_length] at hget
          have hz2 := Option.some_inj.1 hget
          subst hz2
          exact hxbad
        · have hnone : (l ++ [x]).get? k = none := by
            rw [List.get?_eq_none]
            simp only [List.length_append, List.length_singleton]
            omega
          rw [hnone] at hget
          exact absurd hget (by simp)
      · right
        have hk0len : k0 < l.length := by
          by_contra hcon
          have : l.get? k0 = none := List.get?_eq_none.2 (by omega)
          rw [this] at hget0
          exact absurd hget0 (by simp)
        have hxsmall : thr < x → x < y0 := by
          intro hx
          by_contra hcon
          push_neg at hcon
          apply hcond
          refine ⟨hx, ?_⟩
          rw [hst]
          exact hcon
        refine ⟨k0, y0, hst, ?_, hq0, ?_, ?_⟩
        · rw [List.get?_append hk0len]
          exact hget0
        · intro i z hget hz
          rcases Nat.lt_trichotomy i l.length with hlt | heq | hgt
          · rw [List.get?_append hlt] at hget
            exact hmax0 i z hget hz
          · subst heq
            rw [List.get?_concat_length] at hget
            have hz2 := Option.some_inj.1 hget
            subst hz2
            exact le_of_lt (hxsmall hz)
          · have hnone : (l ++ [x]).get? i = none := by
              rw [List.get?_eq_none]
              simp only [List.length_append, List.length_singleton]
              omega
            rw [hnone] at hget
            exact absurd hget (by simp)
        · intro i z hget hz hki
          rcases Nat.lt_trichotomy i l.length with hlt | heq | hgt
          · rw [List.get?_append hlt] at hget
            exact hlast0 i z hget hz hki
          · subst heq
            rw [List.get?_concat_length] at hget
            have hz2 := Option.some_inj.1 hget
            subst hz2
            exact hxsmall hz
          · have hnone : (l ++ [x]).get? i = none := by
              rw [List.get?_eq_none]
              simp only [List.length_append, List.length_singleton]
              omega
            rw [hnone] at hget
            exact absurd hget (by simp)

/-! ### Characterisation of the pass-2 best-score selection -/

/-- `selBest` on a group all of whose member scores are positive picks
the FIRST member (in scan order) whose score attains the maximum
member score (the strict `>` comparison keeps the earlier member on
exact ties). -/
lemma selBest_spec (scores : List ℚ) :
    ∀ grp : List ℕ, (∀ k ∈ grp, 0 < scores.getD k 0) → grp ≠ [] →
      ∃ (t : ℕ) (i : ℕ), grp.get? t = some i ∧
        (selBest scores grp).1 = (i : ℤ) ∧
        (selBest scores grp).2 = scores.getD i 0 ∧
        (∀ (u : ℕ) (j : ℕ), grp.get? u = some j →
          scores.getD j 0 ≤ scores.getD i 0) ∧
        (∀ (u : ℕ) (j : ℕ),
          grp.get? u = some j → u < t → scores.getD j 0 < scores.getD i 0) := by
  intro grp
  induction grp using List.reverseRecOn with
  | nil => intro _ hne; exact absurd rfl hne
  | append_singleton l x ih =>
    intro hpos _
    have hstep : selBest scores (l ++ [x]) =
        if (selBest scores l).2 < scores.getD x 0
        then ((x : ℤ), scores.getD x 0) else selBest scores l := by
      rw [selBest, List.foldl_append]
      rw [← selBest]
      rcases h : selBest scores l with ⟨ib, sb⟩
      simp [List.foldl]
    rcases List.eq_nil_or_concat' l with rfl | ⟨l0, y, rfl⟩
    ·
      -- singleton group: the positive score beats the initial best 0
      have hx : 0 < scores.getD x 0 := hpos x (by simp)
      rw [hstep]
      have hsel : selBest scores ([] : List ℕ) = (-1, 0) := rfl
      rw [hsel, if_pos hx]
      refine ⟨0, x, by simp, rfl, rfl, ?_, ?_⟩
      · intro u j hget
        rcases u with _ | u
        · simp at hget
          subst hget
          exact le_rfl
        · simp at hget
      · intro u j _ hu
        omega
    ·
      have hlne : l0 ++ [y] ≠ [] := by simp
      obtain ⟨t, i, hget, h1, h2, hmax, hfirst⟩ :=
        ih (fun k hk => hpos k (List.mem_append_left _ hk)) hlne
      have htlen : t < (l0 ++ [y]).length := by
        by_contra hcon
        have : (l0 ++ [y]).get? t = none := List.get?_eq_none.2 (by omega)
        rw [this] at hget
        exact absurd hget (by simp)
      rw [hstep]
      by_cases hup : (selBest scores (l0 ++ [y])).2 < scores.getD x 0
      · rw [if_pos hup]
        rw [h2] at hup
        refine ⟨(l0 ++ [y]).length, x, List.get?_concat_length _ _,
          rfl, rfl, ?_, ?_⟩
        · intro u j hget2
          rcases Nat.lt_trichotomy u (l0 ++ [y]).length with hlt | heq | hgt
          · rw [List.get?_append hlt] at hget2
            exact le_of_lt (lt_of_le_of_lt (hmax u j hget2) hup)
          · subst heq
            rw [List.get?_concat_length] at hget2
            have hz2 := Option.some_inj.1 hget2
            subst hz2
            exact le_rfl
          · have hnone : ((l0 ++ [y]) ++ [x]).get? u = none := by
              rw [List.get?_eq_none]
              simp only [List.length_append, List.length_singleton] at hgt ⊢
              omega
            rw [hnone] at hget2
            exact absurd hget2 (by simp)
        · intro u j hget2 hu
          have hu2 : u < (l0 ++ [y]).length := by omega
          rw [List.get?_append hu2] at hget2
          exact lt_of_le_of_lt (hmax u j hget2) hup
      · rw [if_neg hup]
        rw [h2] at hup
        push_neg at hup
        refine ⟨t, i, ?_, h1, h2, ?_, ?_⟩
        · rw [List.get?_append htlen]
          exact hget
        · intro u j hget2
          rcases Nat.lt_trichotomy u (l0 ++ [y]).length with hlt | heq | hgt
          · rw [List.get?_append hlt] at hget2
            exact hmax u j hget2
          · subst heq
            rw [List.get?_concat_length] at hget2
            have hz2 := Option.some_inj.1 hget2
            subst hz2
            exact hup
          · have hnone : ((l0 ++ [y]) ++ [x]).get? u = none := by
              rw [List.get?_eq_none]
              simp only [List.length_append, List.length_singleton] at hgt ⊢
              omega
            rw [hnone] at hget2
            exact absurd hget2 (by simp)
        · intro u j hget2 hu
          have hu2 : u < (l0 ++ [y]).length := by omega
          rw [List.get?_append hu2] at hget2
          exact hfirst u j hget2 hu

/-! ### Test-loop lemmas -/

lemma testAnalyzed_length {β : Type} (m : ℤ) (hm : 0 < m) :
    ∀ (imgs : List β) (nimg : ℕ),
      (testAnalyzed m nimg imgs).length =
        min (m - 1 - nimg).toNat imgs.length := by
  intro imgs
  induction imgs with
  | nil => intro nimg; simp [testAnalyzed]
  | cons img rest ih =>
    intro nimg
    rw [testAnalyzed]
    split
    · rename_i hcond
      have h0 : (m - 1 - (nimg : ℤ)).toNat = 0 := by
        rcases hcond with ⟨_, hle⟩
        omega
      rw [h0]
      simp
    · rename_i hcond
      have hlt : ((nimg : ℤ) + 1) < m := by
        by_contra hcon
        push_neg at hcon
        exact hcond ⟨hm, by push_cast; omega⟩
      simp only [List.length_cons]
      rw [ih (nimg + 1)]
      push_cast
      omega

lemma testAnalyzed_nocap {β : Type} (m : ℤ) (hm : ¬ 0 < m) :
    ∀ (imgs : List β) (nimg : ℕ), testAnalyzed m nimg imgs = imgs := by
  intro imgs
  induction imgs with
  | nil => intro _; rfl
  | cons img rest ih =>
    intro nimg
    rw [testAnalyzed, if_neg (fun hc => hm hc.1), ih]

lemma foldl_add_init {M : Type} [AddCommMonoid M] :
    ∀ (L : List M) (x : M), L.foldl (· + ·) x = x + L.foldl (· + ·) 0 := by
  intro L
  induction L with
  | nil => intro x; simp
  | cons a L ih =>
    intro x
    simp only [List.foldl_cons]
    rw [ih (x + a), ih (0 + a), zero_add, add_assoc]

/-- The accumulated totals are the initial accumulator plus the sum of
the successful contributions of the analyzed images. -/
lemma testTotals_eq_sum {M : Type} [AddCommMonoid M] (m : ℤ) :
    ∀ (imgs : List (Option M)) (nimg : ℕ) (acc : M),
      testTotals m nimg acc imgs =
        acc + ((testAnalyzed m nimg imgs).filterMap id).foldl (· + ·) 0 := by
  intro imgs
  induction imgs with
  | nil => intro nimg acc; simp [testTotals, testAnalyzed]
  | cons o rest ih =>
    intro nimg acc
    rw [testTotals, testAnalyzed]
    split
    · simp
    · cases o with
      | none =>
        show testTotals m (nimg + 1) acc rest = _
        rw [ih (nimg + 1) acc]
        have hfm : (none :: testAnalyzed m (nimg + 1) rest).filterMap
            (id : Option M → Option M) =
            (testAnalyzed m (nimg + 1) rest).filterMap id := by simp
        rw [hfm]
      | some c =>
        show testTotals m (nimg + 1) (acc + c) rest = _
        rw [ih (nimg + 1) (acc + c)]
        have hfm : (some c :: testAnalyzed m (nimg + 1) rest).filterMap
            (id : Option M → Option M) =
            c :: (testAnalyzed m (nimg + 1) rest).filterMap id := by simp
        rw [hfm, List.foldl_cons, foldl_add_init _ (0 + c), zero_add,
          add_assoc]

/-! ### Pointwise values of the normalisation loops -/

lemma purity_fold_ne (nd ndr : ℕ → ℚ) :
    ∀ (l : List ℕ) (acc : ℕ → ℚ) (j : ℕ), j ∉ l →
      (l.foldl (fun acc j' => if nd j' ≤ 0 then acc
        else Function.update acc j' (ndr j' / nd j')) acc) j = acc j := by
  intro l
  induction l with
  | nil => intro acc j _; rfl
  | cons c l ih =>
    intro acc j hj
    simp only [List.foldl_cons]
    rw [ih _ j (fun hmem => hj (List.mem_cons_of_mem c hmem))]
    split
    · rfl
    · exact Function.update_noteq
        (fun hjc => hj (by rw [hjc]; exact List.mem_cons_self c l)) _ _

lemma purity_fold_mem (nd ndr : ℕ → ℚ) :
    ∀ (l : List ℕ) (acc : ℕ → ℚ) (j : ℕ), j ∈ l → l.Nodup →
      (l.foldl (fun acc j' => if nd j' ≤ 0 then acc
        else Function.update acc j' (ndr j' / nd j')) acc) j =
        if nd j ≤ 0 then acc j else ndr j / nd j := by
  intro l
  induction l with
  | nil => intro acc j hj _; simp at hj
  | cons c l ih =>
    intro acc j hj hnd
    rcases List.mem_cons.1 hj with rfl | hj'
    · have hnotl : j ∉ l := (List.nodup_cons.1 hnd).1
      simp only [List.foldl_cons]
      rw [purity_fold_ne nd ndr l _ j hnotl]
      split
      · rfl
      · exact Function.update_same _ _ _
    · have hne : j ≠ c := by
        intro hjc
        exact (List.nodup_cons.1 hnd).1 (hjc ▸ hj')
      simp only [List.foldl_cons]
      rw [ih _ j hj' (List.nodup_cons.1 hnd).2]
      have hstep : (if nd c ≤ 0 then acc
          else Function.update acc c (ndr c / nd c)) j = acc j := by
        split
        · rfl
        · exact Function.update_noteq hne _ _
      rw [hstep]

lemma normCM_inner_ne (f : ℕ → ℚ) (i : ℕ) :
    ∀ (l : List ℕ) (acc : ℕ → ℕ → ℚ) (a b : ℕ), a ≠ i ∨ b ∉ l →
      (l.foldl (fun acc2 j => upd2 acc2 i j (f j)) acc) a b = acc a b := by
  intro l
  induction l with
  | nil => intro acc a b _; rfl
  | cons c l ih =>
    intro acc a b hab
    simp only [List.foldl_cons]
    have hab' : a ≠ i ∨ b ∉ l := by
      rcases hab with h | h
      · exact Or.inl h
      · exact Or.inr (fun hmem => h (List.mem_cons_of_mem c hmem))
    rw [ih _ a b hab']
    unfold upd2
    rw [if_neg]
    rintro ⟨rfl, rfl⟩
    rcases hab with h | h
    · exact h rfl
    · exact h (List.mem_cons_self b l)

lemma normCM_inner_mem (f : ℕ → ℚ) (i : ℕ) :
    ∀ (l : List ℕ) (acc : ℕ → ℕ → ℚ) (b : ℕ), b ∈ l → l.Nodup →
      (l.foldl (fun acc2 j => upd2 acc2 i j (f j)) acc) i b = f b := by
  intro l
  induction l with
  | nil => intro acc b hb _; simp at hb
  | cons c l ih =>
    intro acc b hb hnd
    rcases List.mem_cons.1 hb with rfl | hb'
    · have hnotl : b ∉ l := (List.nodup_cons.1 hnd).1
      simp only [List.foldl_cons]
      rw [normCM_inner_ne f i l _ i b (Or.inr hnotl)]
      unfold upd2
      rw [if_pos ⟨rfl, rfl⟩]
    · simp only [List.foldl_cons]
      exact ih _ b hb' (List.nodup_cons.1 hnd).2

lemma normCM_outer_ne (n : ℕ) (cm : ℕ → ℕ → ℚ) (nt : ℕ → ℚ) :
    ∀ (l : List ℕ) (acc : ℕ → ℕ → ℚ) (a b : ℕ), a ∉ l →
      (l.foldl (fun acc i => if nt i ≤ 0 then acc
        else (List.range n).foldl
          (fun acc2 j => upd2 acc2 i j (cm i j / nt i)) acc) acc) a b =
        acc a b := by
  intro l
  induction l with
  | nil => intro acc a b _; rfl
  | cons c l ih =>
    intro acc a b ha
    simp only [List.foldl_cons]
    rw [ih _ a b (fun hmem => ha (List.mem_cons_of_mem c hmem))]
    have hac : a ≠ c := fun hx => ha (by rw [hx]; exact List.mem_cons_self c l)
    split
    · rfl
    · exact normCM_inner_ne _ c (List.range n) acc a b (Or.inl hac)

lemma normCM_val (n : ℕ) (cm : ℕ → ℕ → ℚ) (nt : ℕ → ℚ) :
    ∀ (l : List ℕ) (acc : ℕ → ℕ → ℚ) (i j : ℕ), i ∈ l → l.Nodup →
      j < n →
      (l.foldl (fun acc i' => if nt i' ≤ 0 then acc
        else (List.range n).foldl
          (fun acc2 j' => upd2 acc2 i' j' (cm i' j' / nt i')) acc) acc) i j =
        if nt i ≤ 0 then acc i j else cm i j / nt i := by
  intro l
  induction l with
  | nil => intro acc i j hi _ _; simp at hi
  | cons c l ih =>
    intro acc i j hi hnd hj
    rcases List.mem_cons.1 hi with rfl | hi'
    · have hnotl : i ∉ l := (List.nodup_cons.1 hnd).1
      simp only [List.foldl_cons]
      rw [normCM_outer_ne n cm nt l _ i j hnotl]
      split
      · rfl
      · exact normCM_inner_mem _ i (List.range n) acc j
          (List.mem_range.2 hj) (List.nodup_range n)
    · have hne : i ≠ c := by
        intro hic
        exact (List.nodup_cons.1 hnd).1 (hic ▸ hi')
      simp only [List.foldl_cons]
      rw [ih _ i j hi' (List.nodup_cons.1 hnd).2 hj]
      have hstep : (if nt c ≤ 0 then acc
          else (List.range n).foldl
            (fun acc2 j' => upd2 acc2 c j' (cm c j' / nt c)) acc) i j =
          acc i j := by
        split
        · rfl
        · exact normCM_inner_ne _ c (List.range n) acc i j (Or.inl hne)
      rw [hstep]

/-! ### Structure of the pass-2 resolution output -/

lemma resolveOverlaps_fold_aux (masks : List Grid) (scores : List ℚ)
    (cids : List ℕ) :
    ∀ (cc : List (List ℕ)) (acc : List Grid × List ℕ × List ℚ),
      (∀ g ∈ cc, g ≠ []) →
      cc.foldl
        (fun acc grp =>
          if grp.isEmpty then acc
          else
            let ib := (selBest scores grp).1
            (acc.1 ++ [pyGetD masks ib []], acc.2.1 ++ [pyGetD cids ib 0],
              acc.2.2 ++ [pyGetD scores ib 0])) acc =
      (acc.1 ++ cc.map (fun grp => pyGetD masks (selBest scores grp).1 []),
        acc.2.1 ++ cc.map (fun grp => pyGetD cids (selBest scores grp).1 0),
        acc.2.2 ++ cc.map (fun grp => pyGetD scores (selBest scores grp).1 0)) := by
  intro cc
  induction cc with
  | nil => intro acc _; simp
  | cons g cc ih =>
    intro acc hne
    simp only [List.foldl_cons, List.map_cons]
    have hg : ¬ g.isEmpty := by
      rw [List.isEmpty_iff]
      exact hne g (List.mem_cons_self g cc)
    rw [if_neg hg]
    rw [ih _ (fun g' hg' => hne g' (List.mem_cons_of_mem g hg'))]
    simp [List.append_assoc]

/-- The pass-2 resolution output: exactly one entry per overlap group,
the one at the index chosen by `selBest`. -/
lemma resolveOverlaps_eq_map (masks : List Grid) (cids : List ℕ)
    (scores : List ℚ) :
    resolveOverlaps masks cids scores =
      ((connectedComponents masks.length (pass2Edge masks cids)).map
          (fun grp => pyGetD masks (selBest scores grp).1 []),
        (connectedComponents masks.length (pass2Edge masks cids)).map
          (fun grp => pyGetD cids (selBest scores grp).1 0),
        (connectedComponents masks.length (pass2Edge masks cids)).map
          (fun grp => pyGetD scores (selBest scores grp).1 0)) := by
  unfold resolveOverlaps
  rw [resolveOverlaps_fold_aux masks scores cids _ ([], [], [])
    (fun g hg => connectedComponents_nonempty hg)]
  simp

/-! ### Claim theorems -/

section ClaimTheorems

attribute [local semireducible] Rat.add Rat.mul Rat.inv Rat.sub

/-- C1: code bug in the ground-truth splitting loop of
`Analyzer.extract_gt_masks`.  On the raw mask [[1, 0, 2]] — two
components with pixel values 1 and 2 — the loop extracts the binary
mask of labelled component 1 with sampled class 1 on BOTH iterations
(the code evaluates `np.where(component_labels_gt == 1)`, not
`== i + 1`), so the second iteration does not produce component 2's
mask [[0, 0, 1]] with class 2 as the claim requires, and distinct
iterations do not extract distinct components. -/
theorem c1_gt_split_uses_fixed_component :
    split_gt_mask [[1, 0, 2]] = [([[1, 0, 0]], 1), ([[1, 0, 0]], 1)] ∧
    ncomp [[1, 0, 2]] = 2 ∧
    gridOfFinset 1 3 ((maskComponents [[1, 0, 2]]).getD 1 ∅) =
      [[0, 0, 1]] ∧
    split_gt_mask [[1, 0, 2]] ≠
      [([[1, 0, 0]], 1), ([[0, 0, 1]], 2)] := by decide

/-- C2 counterexample: with cap m = 1 on a one-image dataset the
claim requires min(1, 1) = 1 analyzed image, but the loop of
`ModelTester.test` increments nimg and tests the cap BEFORE analyzing,
so it breaks without analyzing any image. -/
theorem c2_counterexample :
    ¬ ((testAnalyzed 1 0 [some (1 : ℚ)]).length = min 1 1) := by decide

/-- C2 amended: for every cap m > 0 the test loop analyzes exactly
min(m - 1, N) images — the break fires before the m-th analysis — and
exactly the successful contributions of those images are summed into
the accumulated totals. -/
theorem c2_cap_stops_before_mth (M : Type) [AddCommMonoid M] (m : ℤ)
    (hm : 0 < m) (imgs : List (Option M)) :
    (testAnalyzed m 0 imgs).length = min (m - 1).toNat imgs.length ∧
    testTotals m 0 0 imgs =
      ((testAnalyzed m 0 imgs).filterMap id).foldl (· + ·) 0 := by
  constructor
  · rw [testAnalyzed_length m hm imgs 0]
    norm_num
  · rw [testTotals_eq_sum m imgs 0 0, zero_add]

theorem c2_cap_stops_before_mth_witness :
    0 < (2 : ℤ) ∧
    ((testAnalyzed 2 0 [some (1 : ℚ), some (2 : ℚ)]).length =
        min ((2 : ℤ) - 1).toNat [some (1 : ℚ), some (2 : ℚ)].length ∧
      testTotals 2 0 0 [some (1 : ℚ), some (2 : ℚ)] =
        ((testAnalyzed 2 0 [some (1 : ℚ), some (2 : ℚ)]).filterMap
            id).foldl (· + ·) 0) :=
  ⟨by decide, c2_cap_stops_before_mth ℚ 2 (by decide) _⟩

/-- C3 counterexample: a galaxy-class detection whose mask has zero
foreground pixels, with score 9/10 above the threshold 7/10, flows
through `extract_det_masks` without being dropped: it is the single
final instance, and a (degenerate, all-zero) bounding box and a
caption are appended for it. -/
theorem c3_counterexample :
    (extract_det_masks ["bkg", "sidelobe", "source", "galaxy_C2",
        "galaxy_C3"] (7/10) [[[0]]] [3] [9/10]).masksFinal = [[[0]]] ∧
    fg [[0]] = ∅ ∧
    (extract_det_masks ["bkg", "sidelobe", "source", "galaxy_C2",
        "galaxy_C3"] (7/10) [[[0]]] [3] [9/10]).bboxes =
      [⟨0, 0, 0, 0⟩] ∧
    (extract_det_masks ["bkg", "sidelobe", "source", "galaxy_C2",
        "galaxy_C3"] (7/10) [[[0]]] [3] [9/10]).captions =
      [("galaxy_C2", 9/10)] := by decide

/-- C3 amended: merged detection instances with zero foreground
pixels are NOT dropped before bounding-box extraction: a bounding box
is computed for every finally selected mask, empty or not, and an
empty-foreground mask yields the degenerate all-zero box. -/
theorem c3_empty_mask_not_dropped (classNames : List String) (thr : ℚ)
    (masks : List Grid) (classIds : List ℕ) (scores : List ℚ) :
    (extract_det_masks classNames thr masks classIds scores).bboxes =
      ((extract_det_masks classNames thr masks classIds
          scores).masksFinal).map extract_bbox ∧
    (∀ mk : Grid, fg mk = ∅ → extract_bbox mk = ⟨0, 0, 0, 0⟩) := by
  refine ⟨assembleDetOut_bboxes classNames
    (detPipeline classNames thr masks classIds scores), ?_⟩
  intro mk hmk
  unfold extract_bbox
  rw [dif_neg]
  rw [hmk]
  exact Finset.not_nonempty_empty

theorem c3_empty_mask_not_dropped_witness :
    fg [[0]] = ∅ ∧ extract_bbox [[0]] = ⟨0, 0, 0, 0⟩ :=
  ⟨by decide, (c3_empty_mask_not_dropped [] 0 [] [] []).2 [[0]] (by decide)⟩

lemma are_mask_connected_eq (m1 m2 : Grid) :
    are_mask_connected m1 m2 =
      if ncomp (merge_masks m1 m2) = ncomp m1 + ncomp m2 then false
      else true := rfl

/-- C4: for equal-size masks the touching predicate
`are_mask_connected` returns true iff the merged mask's component
count is strictly below the sum of the two component counts; equal
counts give not-touching, and for (in particular disjoint)
non-touching masks the union has exactly the sum of the counts. -/
theorem c4_touching_iff_fewer_components (h w : ℕ) (m1 m2 : Grid)
    (h1 : Shaped h w m1) (h2 : Shaped h w m2) :
    (are_mask_connected m1 m2 = true ↔
      ncomp (merge_masks m1 m2) < ncomp m1 + ncomp m2) ∧
    (ncomp (merge_masks m1 m2) = ncomp m1 + ncomp m2 →
      are_mask_connected m1 m2 = false) ∧
    (Disjoint (fg m1) (fg m2) → are_mask_connected m1 m2 = false →
      ncomp (merge_masks m1 m2) = ncomp m1 + ncomp m2) := by
  have hle := ncomp_merge_le h1 h2
  by_cases heq : ncomp (merge_masks m1 m2) = ncomp m1 + ncomp m2
  · refine ⟨?_, ?_, ?_⟩
    · rw [are_mask_connected_eq, if_pos heq]
      constructor
      · intro hc; exact absurd hc (by simp)
      · intro hlt; omega
    · intro _
      rw [are_mask_connected_eq, if_pos heq]
    · intro _ _
      exact heq
  · refine ⟨?_, ?_, ?_⟩
    · rw [are_mask_connected_eq, if_neg heq]
      constructor
      · intro _; omega
      · intro _; rfl
    · intro hc; exact absurd hc heq
    · intro _ hfalse
      rw [are_mask_connected_eq, if_neg heq] at hfalse
      exact absurd hfalse (by simp)

theorem c4_touching_iff_fewer_components_witness :
    Shaped 1 2 [[1, 0]] ∧ Shaped 1 2 [[0, 1]] ∧
    ((are_mask_connected [[1, 0]] [[0, 1]] = true ↔
        ncomp (merge_masks [[1, 0]] [[0, 1]]) <
          ncomp [[1, 0]] + ncomp [[0, 1]]) ∧
      (ncomp (merge_masks [[1, 0]] [[0, 1]]) =
          ncomp [[1, 0]] + ncomp [[0, 1]] →
        are_mask_connected [[1, 0]] [[0, 1]] = false) ∧
      (Disjoint (fg [[1, 0]]) (fg [[0, 1]]) →
        are_mask_connected [[1, 0]] [[0, 1]] = false →
        ncomp (merge_masks [[1, 0]] [[0, 1]]) =
          ncomp [[1, 0]] + ncomp [[0, 1]])) :=
  ⟨by decide, by decide,
    c4_touching_iff_fewer_components 1 2 [[1, 0]] [[0, 1]]
      (by decide) (by decide)⟩

/-- C5: the IoU matching of `Analyzer.compute_performances`.  A
detection qualifies only when its IoU is strictly above the
threshold; among qualifiers the fold keeps the greatest IoU with
exact ties resolved to the later-scanned entry (BestSpec); when a
best detection exists at index k the confusion matrix gains one at
[class_gt][class of detection k], otherwise only nobjs_true[class_gt]
is incremented; and the purity-direction scan applies the same
threshold and tie rule through the same fold. -/
theorem c5_iou_matching_rule (thr : ℚ) (hthr : 0 ≤ thr)
    (gts dets : List (Box × ℕ)) (gt d : Box × ℕ)
    (st : (ℕ → ℕ → ℚ) × (ℕ → ℚ)) (st2 : (ℕ → ℚ) × (ℕ → ℚ)) :
    BestSpec thr (dets.map (fun d' => get_iou d'.1 gt.1))
      (bestIdx thr (dets.map (fun d' => get_iou d'.1 gt.1))) ∧
    (gtStep dets thr st gt).2 = bump st.2 gt.2 ∧
    ((bestIdx thr (dets.map (fun d' => get_iou d'.1 gt.1))).1 = -1 →
      (gtStep dets thr st gt).1 = st.1) ∧
    (∀ k : ℕ,
      (bestIdx thr (dets.map (fun d' => get_iou d'.1 gt.1))).1 = (k : ℤ) →
      (gtStep dets thr st gt).1 =
        bump2 st.1 gt.2 ((dets.getD k (⟨0, 0, 0, 0⟩, 0)).2)) ∧
    BestSpec thr (gts.map (fun g => get_iou d.1 g.1))
      (bestIdx thr (gts.map (fun g => get_iou d.1 g.1))) ∧
    (detStep gts thr st2 d).1 = bump st2.1 d.2 ∧
    (∀ ib : ℤ, ib = (bestIdx thr (gts.map (fun g => get_iou d.1 g.1))).1 →
      ((ib ≠ -1 ∧ (gts.getD ib.toNat (⟨0, 0, 0, 0⟩, 0)).2 = d.2 →
          (detStep gts thr st2 d).2 = bump st2.2 d.2) ∧
        (¬ (ib ≠ -1 ∧ (gts.getD ib.toNat (⟨0, 0, 0, 0⟩, 0)).2 = d.2) →
          (detStep gts thr st2 d).2 = st2.2))) := by
  refine ⟨bestIdx_spec thr hthr _, ?_, ?_, ?_,
    bestIdx_spec thr hthr _, ?_, ?_⟩
  · simp only [gtStep]
    split <;> rfl
  · intro hib
    simp only [gtStep]
    rw [if_pos hib]
  · intro k hk
    simp only [gtStep]
    rw [if_neg (by rw [hk]; omega)]
    rw [hk]
    simp
  · simp only [detStep]
    split <;> rfl
  · intro ib hib
    subst hib
    constructor
    · intro hcond
      simp only [detStep]
      rw [if_pos hcond]
    · intro hcond
      simp only [detStep]
      rw [if_neg hcond]

theorem c5_iou_matching_rule_witness :
    0 ≤ (3/5 : ℚ) ∧
    (BestSpec (3/5) ([((⟨0, 0, 2, 2⟩ : Box), 1)].map
        (fun d' => get_iou d'.1 (⟨0, 0, 2, 2⟩ : Box)))
      (bestIdx (3/5) ([((⟨0, 0, 2, 2⟩ : Box), 1)].map
        (fun d' => get_iou d'.1 (⟨0, 0, 2, 2⟩ : Box)))) ∧
    (gtStep [((⟨0, 0, 2, 2⟩ : Box), 1)] (3/5)
        (fun _ _ => 0, fun _ => 0) ((⟨0, 0, 2, 2⟩ : Box), 1)).2 =
      bump (fun _ => 0) 1 ∧
    ((bestIdx (3/5) ([((⟨0, 0, 2, 2⟩ : Box), 1)].map
        (fun d' => get_iou d'.1 (⟨0, 0, 2, 2⟩ : Box)))).1 = -1 →
      (gtStep [((⟨0, 0, 2, 2⟩ : Box), 1)] (3/5)
        (fun _ _ => 0, fun _ => 0) ((⟨0, 0, 2, 2⟩ : Box), 1)).1 =
        (fun _ _ => 0)) ∧
    (∀ k : ℕ,
      (bestIdx (3/5) ([((⟨0, 0, 2, 2⟩ : Box), 1)].map
        (fun d' => get_iou d'.1 (⟨0, 0, 2, 2⟩ : Box)))).1 = (k : ℤ) →
      (gtStep [((⟨0, 0, 2, 2⟩ : Box), 1)] (3/5)
        (fun _ _ => 0, fun _ => 0) ((⟨0, 0, 2, 2⟩ : Box), 1)).1 =
        bump2 (fun _ _ => 0) 1
          (([((⟨0, 0, 2, 2⟩ : Box), 1)].getD k (⟨0, 0, 0, 0⟩, 0)).2)) ∧
    BestSpec (3/5) ([((⟨0, 0, 2, 2⟩ : Box), 1)].map
        (fun g => get_iou (⟨0, 0, 2, 2⟩ : Box) g.1))
      (bestIdx (3/5) ([((⟨0, 0, 2, 2⟩ : Box), 1)].map
        (fun g => get_iou (⟨0, 0, 2, 2⟩ : Box) g.1))) ∧
    (detStep [((⟨0, 0, 2, 2⟩ : Box), 1)] (3/5)
        (fun _ => 0, fun _ => 0) ((⟨0, 0, 2, 2⟩ : Box), 1)).1 =
      bump (fun _ => 0) 1 ∧
    (∀ ib : ℤ, ib = (bestIdx (3/5) ([((⟨0, 0, 2, 2⟩ : Box), 1)].map
        (fun g => get_iou (⟨0, 0, 2, 2⟩ : Box) g.1))).1 →
      ((ib ≠ -1 ∧
          ([((⟨0, 0, 2, 2⟩ : Box), 1)].getD ib.toNat
            (⟨0, 0, 0, 0⟩, 0)).2 = 1 →
          (detStep [((⟨0, 0, 2, 2⟩ : Box), 1)] (3/5)
            (fun _ => 0, fun _ => 0) ((⟨0, 0, 2, 2⟩ : Box), 1)).2 =
            bump (fun _ => 0) 1) ∧
        (¬ (ib ≠ -1 ∧
            ([((⟨0, 0, 2, 2⟩ : Box), 1)].getD ib.toNat
              (⟨0, 0, 0, 0⟩, 0)).2 = 1) →
          (detStep [((⟨0, 0, 2, 2⟩ : Box), 1)] (3/5)
            (fun _ => 0, fun _ => 0) ((⟨0, 0, 2, 2⟩ : Box), 1)).2 =
            (fun _ => 0))))) :=
  ⟨by norm_num,
    c5_iou_matching_rule (3/5) (by norm_num)
      [((⟨0, 0, 2, 2⟩ : Box), 1)] [((⟨0, 0, 2, 2⟩ : Box), 1)]
      ((⟨0, 0, 2, 2⟩ : Box), 1) ((⟨0, 0, 2, 2⟩ : Box), 1)
      (fun _ _ => 0, fun _ => 0) (fun _ => 0, fun _ => 0)⟩

/-- C6: in the second detection-resolution pass the overlap groups are
computed from touching alone — the grouping does not change when all
class ids are replaced — and from each group exactly one instance is
kept, namely the one selected by the best-score fold, which under
positive member scores attains the group's maximum score. -/
theorem c6_overlap_resolution_keeps_best (masks : List Grid)
    (cids cids' : List ℕ) (scores : List ℚ) :
    connectedComponents masks.length (pass2Edge masks cids) =
      connectedComponents masks.length (pass2Edge masks cids') ∧
    (resolveOverlaps masks cids scores).1 =
      (connectedComponents masks.length (pass2Edge masks cids)).map
        (fun grp => pyGetD masks (selBest scores grp).1 []) ∧
    (∀ grp ∈ connectedComponents masks.length (pass2Edge masks cids),
      (∀ k ∈ grp, 0 < scores.getD k 0) →
      ∃ (t : ℕ) (i : ℕ), grp.get? t = some i ∧
        (selBest scores grp).1 = (i : ℤ) ∧
        (∀ (u j : ℕ), grp.get? u = some j →
          scores.getD j 0 ≤ scores.getD i 0)) := by
  refine ⟨rfl, ?_, ?_⟩
  · rw [resolveOverlaps_eq_map]
  · intro grp hgrp hpos
    obtain ⟨t, i, hget, h1, _, hmax, _⟩ :=
      selBest_spec scores grp hpos (connectedComponents_nonempty hgrp)
    exact ⟨t, i, hget, h1, fun u j hj => hmax u j hj⟩

theorem c6_overlap_resolution_keeps_best_witness :
    connectedComponents 2 (pass2Edge [[[1, 1]], [[1, 1]]] [1, 2]) =
      connectedComponents 2 (pass2Edge [[[1, 1]], [[1, 1]]] [3, 3]) ∧
    (resolveOverlaps [[[1, 1]], [[1, 1]]] [1, 2] [9/10, 3/5]).1 =
      (connectedComponents 2 (pass2Edge [[[1, 1]], [[1, 1]]] [1, 2])).map
        (fun grp => pyGetD [[[1, 1]], [[1, 1]]]
          (selBest [9/10, 3/5] grp).1 []) ∧
    (∀ grp ∈ connectedComponents 2 (pass2Edge [[[1, 1]], [[1, 1]]] [1, 2]),
      (∀ k ∈ grp, 0 < [(9 : ℚ)/10, 3/5].getD k 0) →
      ∃ (t : ℕ) (i : ℕ), grp.get? t = some i ∧
        (selBest [9/10, 3/5] grp).1 = (i : ℤ) ∧
        (∀ (u j : ℕ), grp.get? u = some j →
          [(9 : ℚ)/10, 3/5].getD j 0 ≤ [(9 : ℚ)/10, 3/5].getD i 0)) := by
  have h := c6_overlap_resolution_keeps_best [[[1, 1]], [[1, 1]]]
    [1, 2] [3, 3] [9/10, 3/5]
  exact ⟨h.1, h.2.1, h.2.2⟩

/-- C7: after the dataset pass, `ModelTester.compute_performances`
sets the normalised matrix entry [i][j] to
classification_matrix[i][j] / nobjs_true[i] exactly for rows with
nobjs_true[i] > 0, leaving other rows at their zero initialisation,
and sets purity[j] to nobjs_det_right[j] / nobjs_det[j] for classes
with nobjs_det[j] > 0 and 0 otherwise. -/
theorem c7_normalization_and_purity (n : ℕ) (cm : ℕ → ℕ → ℚ)
    (nt nd ndr : ℕ → ℚ) (i j : ℕ) (hi : i < n) (hj : j < n) :
    normalizeCM n cm nt i j = (if 0 < nt i then cm i j / nt i else 0) ∧
    computePurity n nd ndr j = (if 0 < nd j then ndr j / nd j else 0) := by
  constructor
  · unfold normalizeCM
    rw [normCM_val n cm nt (List.range n) _ i j (List.mem_range.2 hi)
      (List.nodup_range n) hj]
    by_cases hp : nt i ≤ 0
    · rw [if_pos hp, if_neg (not_lt.2 hp)]
    · rw [if_neg hp, if_pos (not_le.1 hp)]
  · unfold computePurity
    rw [purity_fold_mem nd ndr (List.range n) _ j (List.mem_range.2 hj)
      (List.nodup_range n)]
    by_cases hp : nd j ≤ 0
    · rw [if_pos hp, if_neg (not_lt.2 hp)]
    · rw [if_neg hp, if_pos (not_le.1 hp)]

theorem c7_normalization_and_purity_witness :
    0 < 2 ∧ 1 < 2 ∧
    (normalizeCM 2 (fun i j => (i * 2 + j : ℚ))
        (fun i => if i = 0 then 2 else 0) 0 1 =
      (if 0 < (if (0 : ℕ) = 0 then (2 : ℚ) else 0)
        then ((0 : ℕ) * 2 + 1 : ℚ) / (if (0 : ℕ) = 0 then (2 : ℚ) else 0)
        else 0) ∧
      computePurity 2 (fun _ => 2) (fun _ => 1) 1 =
        (if 0 < (2 : ℚ) then (1 : ℚ) / 2 else 0)) :=
  ⟨by decide, by decide,
    c7_normalization_and_purity 2 (fun i j => (i * 2 + j : ℚ))
      (fun i => if i = 0 then 2 else 0) (fun _ => 2) (fun _ => 1) 0 1
      (by decide) (by decide)⟩

/-- C8: a per-image failure (negative status, e.g. `get_data` with no
dataset bound) makes `ModelTester.test` skip exactly that image: with
the default uncapped run the totals over a list with a failed image
equal the totals with that image removed, the accumulated totals are
always the sum of the successful contributions of the analyzed
images, and a missing dataset indeed yields a negative status. -/
theorem c8_failed_image_skipped (M : Type) [AddCommMonoid M] (m : ℤ)
    (hm : ¬ 0 < m) (pre post : List (Option M)) :
    testTotals m 0 0 (pre ++ none :: post) =
      testTotals m 0 0 (pre ++ post) ∧
    (∀ (imgs : List (Option M)) (nimg : ℕ) (acc : M),
      testTotals m nimg acc imgs =
        acc + ((testAnalyzed m nimg imgs).filterMap id).foldl (· + ·) 0) ∧
    get_data_status (none : Option Unit) < 0 := by
  refine ⟨?_, fun imgs nimg acc => testTotals_eq_sum m imgs nimg acc,
    by decide⟩
  rw [testTotals_eq_sum, testTotals_eq_sum,
    testAnalyzed_nocap m hm, testAnalyzed_nocap m hm]
  simp

theorem c8_failed_image_skipped_witness :
    ¬ 0 < (-1 : ℤ) ∧
    (testTotals (-1) 0 0 ([some (1 : ℚ)] ++ none :: [some (2 : ℚ)]) =
        testTotals (-1) 0 0 ([some (1 : ℚ)] ++ [some (2 : ℚ)]) ∧
      (∀ (imgs : List (Option ℚ)) (nimg : ℕ) (acc : ℚ),
        testTotals (-1) nimg acc imgs =
          acc + ((testAnalyzed (-1) nimg imgs).filterMap id).foldl
            (· + ·) 0) ∧
      get_data_status (none : Option Unit) < 0) :=
  ⟨by decide,
    c8_failed_image_skipped ℚ (-1) (by decide) [some 1] [some 2]⟩

/-- C9: merge_masks (elementwise sum clipped at 1) is commutative and
associative, and folding the member masks of a connected component —
the merge loop of the pipeline — yields the same mask for every
permutation of equal-shape 0/1 member masks. -/
theorem c9_merge_masks_algebra (h w : ℕ) (m1 m2 m3 : Grid)
    (l l' : List Grid)
    (hl : ∀ g ∈ l, Shaped h w g ∧ BinaryGrid g) (hne : l ≠ [])
    (hperm : l.Perm l') :
    merge_masks m1 m2 = merge_masks m2 m1 ∧
    merge_masks (merge_masks m1 m2) m3 =
      merge_masks m1 (merge_masks m2 m3) ∧
    mergeFold l = mergeFold l' :=
  ⟨merge_masks_comm m1 m2, merge_masks_assoc m1 m2 m3,
    mergeFold_perm hperm hl hne⟩

theorem c9_merge_masks_algebra_witness :
    (∀ g ∈ [[[1, 0]], [[0, 1]]],
      Shaped 1 2 g ∧ BinaryGrid g) ∧
    ([[[1, 0]], [[0, 1]]] : List Grid) ≠ [] ∧
    ([[[1, 0]], [[0, 1]]] : List Grid).Perm [[[0, 1]], [[1, 0]]] ∧
    (merge_masks [[1, 0]] [[0, 1]] = merge_masks [[0, 1]] [[1, 0]] ∧
      merge_masks (merge_masks [[1, 0]] [[0, 1]]) [[1, 1]] =
        merge_masks [[1, 0]] (merge_masks [[0, 1]] [[1, 1]]) ∧
      mergeFold [[[1, 0]], [[0, 1]]] = mergeFold [[[0, 1]], [[1, 0]]]) :=
  ⟨by decide, by decide, by decide,
    c9_merge_masks_algebra 1 2 [[1, 0]] [[0, 1]] [[1, 1]]
      [[[1, 0]], [[0, 1]]] [[[0, 1]], [[1, 0]]]
      (by decide) (by decide) (by decide)⟩

/-- C10: in the second detection-resolution pass score ties are broken
in favour of the earliest-scanned group member: for every overlap
group all of whose member scores are positive, the index kept by the
strict greater-than fold is the first member in scan order whose
score attains the group maximum — the opposite tie direction from
the >= rule of the IoU matching. -/
theorem c10_score_tie_first_member (masks : List Grid)
    (cids : List ℕ) (scores : List ℚ) :
    ∀ grp ∈ connectedComponents masks.length (pass2Edge masks cids),
      (∀ k ∈ grp, 0 < scores.getD k 0) →
      ∃ (t : ℕ) (i : ℕ), grp.get? t = some i ∧
        (selBest scores grp).1 = (i : ℤ) ∧
        (∀ (u j : ℕ), grp.get? u = some j →
          scores.getD j 0 ≤ scores.getD i 0) ∧
        (∀ (u j : ℕ), grp.get? u = some j → u < t →
          scores.getD j 0 < scores.getD i 0) := by
  intro grp hgrp hpos
  obtain ⟨t, i, hget, h1, _, hmax, hfirst⟩ :=
    selBest_spec scores grp hpos (connectedComponents_nonempty hgrp)
  exact ⟨t, i, hget, h1, fun u j hj => hmax u j hj, hfirst⟩

theorem c10_score_tie_first_member_witness :
    [0, 1] ∈ connectedComponents 2
      (pass2Edge [[[1, 1]], [[1, 1]]] [1, 2]) ∧
    (∀ k ∈ [0, 1], 0 < [(9 : ℚ)/10, 9/10].getD k 0) ∧
    (∃ (t : ℕ) (i : ℕ), [0, 1].get? t = some i ∧
      (selBest [(9 : ℚ)/10, 9/10] [0, 1]).1 = (i : ℤ) ∧
      (∀ (u j : ℕ), [0, 1].get? u = some j →
        [(9 : ℚ)/10, 9/10].getD j 0 ≤ [(9 : ℚ)/10, 9/10].getD i 0) ∧
      (∀ (u j : ℕ), [0, 1].get? u = some j → u < t →
        [(9 : ℚ)/10, 9/10].getD j 0 < [(9 : ℚ)/10, 9/10].getD i 0)) :=
  ⟨by decide, by decide,
    c10_score_tie_first_member [[[1, 1]], [[1, 1]]] [1, 2]
      [(9 : ℚ)/10, 9/10] [0, 1] (by decide) (by decide)⟩

end ClaimTheorems
